import Mathlib

/-!
# LogicData SmartDesk: edge ring buffer and frame decoder

A shallow embedding of `src/main/logic_data.c` / `src/main/logic_data.h`, and of the preset
handler and the main loop of `src/main/main.c`.

* `uint32_t` and `uint16_t` values are natural numbers; every place where the C
  arithmetic can wrap carries an explicit `% 2 ^ 32` or `% 2 ^ 16`.
* `struct logicdata_ctx` keeps the fields the capture and decode code reads or
  writes (`head`, `tail`, `trace`, `prev_bit_us`, `pin_idle`).  The fields
  `rx_gpio`, `started` and `spin` only concern the GPIO driver and the
  critical-section primitive and are left out: the embedding is sequential,
  each function runs to completion.
* A C out-parameter `uint32_t *out` is a value passed in and handed back.
* The two loops of `logicdata_try_read_word` are recursive functions on a
  step counter; running out of steps is reported as `none`.
-/

namespace LogicData

/-! ## Constants of `logic_data.h` -/

/-- One bit per millisecond. -/
def LOGICDATA_SAMPLE_RATE_US : Nat := 1000

/-- The line counts as idle when no edge arrived for this long: `1u << 16`. -/
def LOGICDATA_IDLE_TIME_US : Nat := 65536

/-- Capture ring size. -/
def LOGICDATA_TRACE_HISTORY_MAX : Nat := 80

/-- Sentinel for a long idle period: `(uint32_t)(-1)`. -/
def LOGICDATA_BIG_IDLE : Nat := 4294967295

/-! ## The context -/

/-- The fields of `struct logicdata_ctx` used by capture and decode. -/
structure logicdata_ctx where
  head : Nat
  tail : Nat
  trace : Fin 80 → Nat
  prev_bit_us : Nat
  pin_idle : Bool

/-! ## Ring buffer -/

/-- `ld_next`: `(x + 1) % LOGICDATA_TRACE_HISTORY_MAX`. -/
def ld_next (x : Nat) : Nat :=
  (x + 1) % LOGICDATA_TRACE_HISTORY_MAX

/-- `ld_size`: the operands are promoted to `int`, `%` truncates towards zero,
and the result is converted to `uint32_t`. -/
def ld_size (s : logicdata_ctx) : Nat :=
  (Int.tmod ((LOGICDATA_TRACE_HISTORY_MAX : Int) + (s.head : Int) - (s.tail : Int))
      (LOGICDATA_TRACE_HISTORY_MAX : Int) % 4294967296).toNat

/-- `ld_push_isr`: store `t` at `head`, advance `head`, and advance `tail` first
when the new `head` would collide with it.  The store `trace[head] = t` is only
defined for `head < 80`; outside the array the embedding leaves `trace` alone. -/
def ld_push_isr (s : logicdata_ctx) (t : Nat) : logicdata_ctx :=
  let trace1 : Fin 80 → Nat :=
    if h : s.head < 80 then Function.update s.trace ⟨s.head, h⟩ t else s.trace
  let new_head := ld_next s.head
  let tail1 := if new_head = s.tail then ld_next s.tail else s.tail
  { s with trace := trace1, tail := tail1, head := new_head }

/-- The slot `ld_peek` reads for a logical index: `(tail + index) % 80`. -/
def ld_peek_pos (s : logicdata_ctx) (index : Nat) : Fin 80 :=
  ⟨(s.tail + index) % 80, Nat.mod_lt _ (by decide)⟩

/-- `ld_peek`: returns `(ok, *out)`.  When `index < ld_size s` the slot at
`(tail + index) % 80` is stored to `*out`; otherwise `*out` keeps the value
`out` it had.  The context is only read. -/
def ld_peek (s : logicdata_ctx) (index : Nat) (out : Nat) : Bool × Nat :=
  let sz := ld_size s
  if index < sz then (true, s.trace (ld_peek_pos s index)) else (false, out)

/-! ## Edge interrupt handler -/

/-- `logicdata_gpio_isr` with the two values it samples, `now` (the timer,
truncated to `uint32_t`) and `level` (the pin). -/
def logicdata_gpio_isr (s : logicdata_ctx) (now : Nat) (level : Bool) : logicdata_ctx :=
  let delta_since : Nat := (((now : Int) - (s.prev_bit_us : Int)) % 4294967296).toNat
  let s1 : logicdata_ctx :=
    if delta_since ≥ LOGICDATA_IDLE_TIME_US then { s with pin_idle := true } else s
  let sync : Bool := decide (s1.head % 2 ≠ 0)
  if level = sync then
    let t := if s1.pin_idle then LOGICDATA_BIG_IDLE else delta_since
    let s2 := ld_push_isr s1 t
    { s2 with pin_idle := false, prev_bit_us := now }
  else s1

/-- The context `logicdata_init` hands out on its success path: `calloc` zeroes
the trace, `now` is the timer value read during initialisation. -/
def logicdata_init (now : Nat) : logicdata_ctx :=
  { head := 0, tail := 0, trace := fun _ => 0, prev_bit_us := now % 4294967296,
    pin_idle := true }

/-! ## Frame validation and field extraction -/

/-- The loop of `ld_parity`: `for (mask = 2u; mask; mask <<= 2) par_count += msg & mask;`
with `n` bounding the number of iterations. -/
def ld_parity_loop (msg : Nat) : Nat → Nat → Nat → Nat
  | 0, _, par_count => par_count
  | n + 1, mask, par_count =>
    if mask = 0 then par_count
    else ld_parity_loop msg n ((mask * 4) % 4294967296) ((par_count + (msg &&& mask)) % 4294967296)

/-- `ld_parity`: `msg |= par_count & 1u`.  The mask takes the 16 values
`2, 8, ..., 2^31` before `mask <<= 2` wraps to zero. -/
def ld_parity (msg : Nat) : Nat :=
  let par_count := ld_parity_loop msg 17 2 0
  msg ||| (par_count &&& 1)

/-- `ld_check_parity`. -/
def ld_check_parity (msg : Nat) : Bool :=
  ld_parity msg == msg

/-- `reverse_nibble` on a `uint8_t`; the left shifts happen in `int`, and the
masks keep the result below 16. -/
def reverse_nibble (x : Nat) : Nat :=
  let ret := 0
  let ret := ret ||| ((x <<< 3) &&& 8)
  let ret := ret ||| ((x <<< 1) &&& 4)
  let ret := ret ||| ((x >>> 1) &&& 2)
  let ret := ret ||| ((x >>> 3) &&& 1)
  ret

/-- `reverse_byte`, with the two casts to `uint8_t`. -/
def reverse_byte (x : Nat) : Nat :=
  ((reverse_nibble x <<< 4) ||| reverse_nibble ((x >>> 4) % 256)) % 256

/-- `logicdata_is_valid`. -/
def logicdata_is_valid (msg : Nat) : Bool :=
  if (msg &&& 0xFFF00000) ≠ 0x40600000 then false
  else ld_check_parity msg

/-- `logicdata_is_number`. -/
def logicdata_is_number (msg : Nat) : Bool :=
  logicdata_is_valid msg && ((msg &&& 0x000FFE00) == 0x00000400)

/-- `logicdata_get_number`. -/
def logicdata_get_number (msg : Nat) : Nat :=
  if logicdata_is_number msg then reverse_byte ((msg >>> 1) % 256) else 0

/-! ## Frame decoder -/

/-- The start-bit search of `logicdata_try_read_word`:
`for (; ld_peek(ctx, i, &t); i++) { if (!level && t > 40 * RATE) { ... break; } level = !level; }`.
The arguments are the step counter, `i`, `level` and `t`; the result is `(i, level)` at
loop exit (`t` is reset before its next use).  The index `i` is a `uint16_t`. -/
def sync_search (s : logicdata_ctx) : Nat → Nat → Bool → Nat → Option (Nat × Bool)
  | 0, _, _, _ => none
  | n + 1, i, level, t =>
    match ld_peek s i t with
    | (false, _) => some (i, level)
    | (true, t) =>
      if !level && t > 40 * LOGICDATA_SAMPLE_RATE_US then
        match ld_peek s ((i + 1) % 65536) 0 with
        | (ok1, t1) =>
          if ok1 && t1 < LOGICDATA_SAMPLE_RATE_US * 2 then some (i, level)
          else sync_search s n ((i + 1) % 65536) (!level) t
      else sync_search s n ((i + 1) % 65536) (!level) t

/-- The bit reconstruction loop of `logicdata_try_read_word`:
`for (t = 0; mask; mask >>= 1) { if (t_meas < RATE) { if (!ld_peek(ctx, ++i, &t)) break; ... } ... }`.
The arguments are the step counter, `mask`, `i`, `level`, `acc`, `t_meas` and `t`; the
result is `(mask, i, acc)` at loop exit.  `t_meas` is a `uint32_t`: both `+=` and `-=`
wrap. -/
def bit_loop (s : logicdata_ctx) :
    Nat → Nat → Nat → Bool → Nat → Nat → Nat → Option (Nat × Nat × Nat)
  | 0, _, _, _, _, _, _ => none
  | n + 1, mask, i, level, acc, t_meas, t =>
    if mask = 0 then some (mask, i, acc)
    else if t_meas < LOGICDATA_SAMPLE_RATE_US then
      match ld_peek s ((i + 1) % 65536) t with
      | (false, _) => some (mask, (i + 1) % 65536, acc)
      | (true, t) =>
        let level := !level
        let t_meas := (t_meas + t) % 4294967296
        let acc := if !level then acc ||| mask else acc
        let t_meas := (t_meas + 4294967296 - LOGICDATA_SAMPLE_RATE_US) % 4294967296
        bit_loop s n (mask >>> 1) ((i + 1) % 65536) level acc t_meas t
    else
      let acc := if !level then acc ||| mask else acc
      let t_meas := (t_meas + 4294967296 - LOGICDATA_SAMPLE_RATE_US) % 4294967296
      bit_loop s n (mask >>> 1) i level acc t_meas t

/-- The commit block of `logicdata_try_read_word` (second critical section): `fini` is
the snapshot of `tail` taken at the start of the call, `i` the scan index.  Returns
`ok` and the context. -/
def commit_block (s : logicdata_ctx) (fini i : Nat) : Bool × logicdata_ctx :=
  if fini = s.tail then
    if i > 0 then (true, { s with tail := (s.tail + (i - 1)) % LOGICDATA_TRACE_HISTORY_MAX })
    else (true, s)
  else (false, s)

/-- The body of `logicdata_try_read_word` for non-null arguments; `out_word` is the value
`*out_word` holds before the call.  Returns the `bool` result, the context and `*out_word`
after the call.  The start-bit search gets 65536 steps: `i` is a `uint16_t` and `level`
flips with it, so a search that has looked at every value of `i` repeats itself for ever.
The bit loop gets 33 steps: 32 halvings of `mask` and the final test. -/
def try_read_word_body (ctx : logicdata_ctx) (out_word : Nat) :
    Option (Bool × logicdata_ctx × Nat) :=
  let fini := ctx.tail
  let level : Bool := decide (fini % 2 = 0)
  match sync_search ctx 65536 0 level 0 with
  | none => none
  | some (i, level) =>
    match bit_loop ctx 33 (1 <<< 31) i level 0 (LOGICDATA_SAMPLE_RATE_US / 2) 0 with
    | none => none
    | some (mask, i, acc) =>
      if mask ≠ 0 then some (false, ctx, out_word)
      else
        match commit_block ctx fini i with
        | (false, ctx1) => some (false, ctx1, out_word)
        | (true, ctx1) => some (true, ctx1, acc)

/-- `logicdata_try_read_word`: `none` in an argument is the null pointer, `some w` for
`out_word` a pointer to a cell holding `w`.  The outer `Option` is `none` when the
start-bit search does not terminate. -/
def logicdata_try_read_word (ctx_ : Option logicdata_ctx) (out_word : Option Nat) :
    Option (Bool × Option logicdata_ctx × Option Nat) :=
  match ctx_, out_word with
  | some ctx, some w =>
    match try_read_word_body ctx w with
    | none => none
    | some (ok, ctx1, w1) => some (ok, some ctx1, some w1)
  | _, _ => some (false, ctx_, out_word)

/-- `logicdata_try_read_height_cm`: returns the height and the context after the call. -/
def logicdata_try_read_height_cm (ctx_ : Option logicdata_ctx) :
    Option (Nat × Option logicdata_ctx) :=
  match logicdata_try_read_word ctx_ (some 0) with
  | none => none
  | some (ok, ctx1, word) =>
    if ok && logicdata_is_number (word.getD 0) then
      some (logicdata_get_number (word.getD 0), ctx1)
    else some (0, ctx1)

/-- Pushing a list of samples in order with `ld_push_isr`. -/
def ld_push_all (s : logicdata_ctx) (vs : List Nat) : logicdata_ctx :=
  vs.foldl ld_push_isr s

/-- The readable contents of the ring: `ld_peek` at the indices `0 .. ld_size - 1`. -/
def ld_view (s : logicdata_ctx) : List Nat :=
  (List.range (ld_size s)).map fun i => (ld_peek s i 0).2

/-! ## Vocabulary of the properties -/

/-- The states reachable from the one `logicdata_init` sets up, through pushes, edge
interrupts and decode calls that return. -/
inductive Reachable : logicdata_ctx → Prop
  | init (now : Nat) : Reachable (logicdata_init now)
  | push (s : logicdata_ctx) (t : Nat) : Reachable s → Reachable (ld_push_isr s t)
  | isr (s : logicdata_ctx) (now : Nat) (level : Bool) :
      Reachable s → Reachable (logicdata_gpio_isr s now level)
  | read (s : logicdata_ctx) (out_word : Option Nat) (ok : Bool) (s1 : logicdata_ctx)
      (out1 : Option Nat) :
      Reachable s → logicdata_try_read_word (some s) out_word = some (ok, some s1, out1) →
      Reachable s1

/-- The bits `n - 1, ..., 0` of `w`, most significant first. -/
def bits_msb : Nat → Nat → List Bool
  | 0, _ => []
  | n + 1, w => w.testBit n :: bits_msb n w

/-- Run-length encoding: `cur` is the bit of the run being counted, `cnt` its length so far. -/
def rle_aux (cur : Bool) (cnt : Nat) : List Bool → List Nat
  | [] => [cnt]
  | b :: bs => if b = cur then rle_aux cur (cnt + 1) bs else cnt :: rle_aux b 1 bs

/-- The lengths of the maximal runs of equal bits of the 32-bit word `w`, read from bit 31
down to bit 0. -/
def run_lengths (w : Nat) : List Nat :=
  match bits_msb 32 w with
  | [] => []
  | b :: bs => rle_aux b 1 bs

/-- The bit list with the given run lengths, the first run made of the bit `b`. -/
def expand_runs (b : Bool) : List Nat → List Bool
  | [] => []
  | r :: rs => List.replicate r b ++ expand_runs (!b) rs

/-- The accumulator after the bits `bs` are OR-ed in from bit `n - 1` downwards
(`2 ^ n / 2` is the mask of bit `n - 1`, and `0` when no bit is left). -/
def acc_bits : Nat → Nat → List Bool → Nat
  | _, acc, [] => acc
  | n, acc, b :: bs => acc_bits (n - 1) (if b then acc ||| 2 ^ n / 2 else acc) bs

/-- The intervals `tvs` cross the sampling grid with the run lengths `rs`: starting with the
budget `d` (below one bit-period), each interval carries the budget over exactly `r`
sampling points and leaves it below one bit-period again. -/
def on_grid : Nat → List Nat → List Nat → Prop
  | _, [], [] => True
  | d, r :: rs, tv :: tvs =>
    1 ≤ r ∧ 1000 * r ≤ d + tv ∧ d + tv - 1000 * r < 1000 ∧ on_grid (d + tv - 1000 * r) rs tvs
  | _, _, _ => False

/-! ## The application loop of `main.c` -/

/-- The two output lines driven by `main.c`. -/
inductive gpio_pin
  | PIN_UP
  | PIN_DOWN
  deriving DecidableEq

/-- The globals of `main.c` that the preset handler and the main loop read or write
(`uint8_t` heights as natural numbers), together with the level of the two output lines
(`true` is `PIN_LEVEL_ASSERTED`) and the list of `gpio_set_level` calls made so far. -/
structure app_state where
  height : Nat
  low_height : Nat
  high_height : Nat
  go_to_height_active : Bool
  go_to_height : Nat
  pin_up : Bool
  pin_down : Bool
  gpio_log : List (gpio_pin × Bool)

/-- `gpio_set_level` on one of the two output lines. -/
def gpio_set_level (st : app_state) (pin : gpio_pin) (level : Bool) : app_state :=
  match pin with
  | gpio_pin.PIN_UP => { st with pin_up := level, gpio_log := st.gpio_log ++ [(pin, level)] }
  | gpio_pin.PIN_DOWN => { st with pin_down := level, gpio_log := st.gpio_log ++ [(pin, level)] }

/-- `handle_height_preset_change`; the two distances are `uint8_t`. -/
def handle_height_preset_change (st : app_state) (height : Nat) : app_state :=
  if st.low_height = 0 then { st with low_height := height }
  else if st.high_height = 0 then { st with high_height := height }
  else
    let dist_to_low : Nat :=
      if height > st.low_height then (height - st.low_height) % 256
      else (st.low_height - height) % 256
    let dist_to_high : Nat :=
      if height > st.high_height then (height - st.high_height) % 256
      else (st.high_height - height) % 256
    if dist_to_low ≤ dist_to_high then { st with low_height := height }
    else { st with high_height := height }

/-- One iteration of the `while (1)` loop of `app_main` (logging and the delay left out). -/
def app_main_loop_step (st : app_state) : app_state :=
  if st.go_to_height_active then
    if st.height = 0 ∨ st.low_height = 0 ∨ st.high_height = 0 then
      let st := gpio_set_level st gpio_pin.PIN_UP false
      gpio_set_level st gpio_pin.PIN_DOWN false
    else if st.height < st.go_to_height then
      let st := gpio_set_level st gpio_pin.PIN_UP true
      gpio_set_level st gpio_pin.PIN_DOWN false
    else if st.height > st.go_to_height then
      let st := gpio_set_level st gpio_pin.PIN_DOWN true
      gpio_set_level st gpio_pin.PIN_UP false
    else
      let st := gpio_set_level st gpio_pin.PIN_UP false
      let st := gpio_set_level st gpio_pin.PIN_DOWN false
      { st with go_to_height_active := false }
  else st

/-- The states reachable from the one `logicdata_init` sets up when the edge interrupt is
the only producer: edge interrupts and decode calls that return. -/
inductive ReachableIsr : logicdata_ctx → Prop
  | init (now : Nat) : ReachableIsr (logicdata_init now)
  | isr (s : logicdata_ctx) (now : Nat) (level : Bool) :
      ReachableIsr s → ReachableIsr (logicdata_gpio_isr s now level)
  | read (s : logicdata_ctx) (out_word : Option Nat) (ok : Bool) (s1 : logicdata_ctx)
      (out1 : Option Nat) :
      ReachableIsr s → logicdata_try_read_word (some s) out_word = some (ok, some s1, out1) →
      ReachableIsr s1

/-- View index `i` is a start marker: the tracked level at `i` is low (`tail + i` odd), the
sample at `i` is longer than 40 bit-periods, and index `i + 1` is buffered with a sample
shorter than 2 bit-periods. -/
def start_marker (s : logicdata_ctx) (i : Nat) : Bool :=
  decide ((s.tail + i) % 2 = 1) &&
    ((ld_peek s i 0).1 && decide ((ld_peek s i 0).2 > 40000) &&
      ((ld_peek s (i + 1) 0).1 && decide ((ld_peek s (i + 1) 0).2 < 2000)))

/-- The bit reconstruction loop read off the list `l` of the buffered samples that follow
the scan index: the same steps as `bit_loop`, with the number of intervals consumed in
place of the scan index.  It is used to state what the loop depends on. -/
def bit_loop_view : Nat → Nat → List Nat → Bool → Nat → Nat → Option (Nat × Nat × Nat)
  | 0, _, _, _, _, _ => none
  | n + 1, mask, l, level, acc, t_meas =>
    if mask = 0 then some (mask, 0, acc)
    else if t_meas < LOGICDATA_SAMPLE_RATE_US then
      match l with
      | [] => some (mask, 1, acc)
      | t :: l1 =>
        let level := !level
        let t_meas := (t_meas + t) % 4294967296
        let acc := if !level then acc ||| mask else acc
        let t_meas := (t_meas + 4294967296 - LOGICDATA_SAMPLE_RATE_US) % 4294967296
        (bit_loop_view n (mask >>> 1) l1 level acc t_meas).map
          fun r => (r.1, r.2.1 + 1, r.2.2)
    else
      let acc := if !level then acc ||| mask else acc
      let t_meas := (t_meas + 4294967296 - LOGICDATA_SAMPLE_RATE_US) % 4294967296
      bit_loop_view n (mask >>> 1) l level acc t_meas

/-- The intervals between edges that lie `e_k` microseconds off the run boundaries `n_k`:
`(1000 * n_k + e_k) - (1000 * n_(k-1) + e_(k-1))`, where `n0` and `e0` are the boundary and
error of the previous edge, `rs` the run lengths (`n_k = n_(k-1) + r_k`) and `es` the
errors. -/
def jitter_intervals : Nat → Int → List Nat → List Int → List Nat
  | n0, e0, r :: rs, e :: es =>
    ((1000 * ((n0 + r : Nat) : Int) + e) - (1000 * (n0 : Int) + e0)).toNat ::
      jitter_intervals (n0 + r) e rs es
  | _, _, _, _ => []

/-! ## Reference algorithm of the specification (section 4.2) -/

/-- Reference algorithm, step 3, inner loop, in the words of the specification: "while the
running budget is less than one bit-period, consume the next buffered interval (advancing
the scan position, flipping the tracked line level, and adding the interval's duration to
the budget)"; "if no further interval is available before the budget reaches one
bit-period, the attempt fails" (`none`).  The arguments are the step counter, the scan
position, the level and the budget; each step consumes one buffered interval, so the 81
steps the caller grants are never used up on a ring of 80 slots. -/
def spec_refill (s : logicdata_ctx) : Nat → Nat → Bool → Nat → Option (Nat × Bool × Nat)
  | 0, _, _, _ => none
  | n + 1, i, level, budget =>
    if budget < LOGICDATA_SAMPLE_RATE_US then
      match ld_peek s (i + 1) 0 with
      | (false, _) => none
      | (true, t) => spec_refill s n (i + 1) (!level) (budget + t)
    else some (i, level, budget)

/-- Reference algorithm, step 3: "for each of the 32 bit positions", refill the budget,
then "the tracked line level determines the bit value" and "the bit-period duration is
then subtracted from the budget".  The first argument is the number of bit positions
left; the word is built most significant bit first, bit `k` being set at position `k`;
as in the code, the low level gives a 1.  The result is the scan position and the word,
or `none` when the attempt fails. -/
def spec_bit_reconstruction (s : logicdata_ctx) :
    Nat → Nat → Bool → Nat → Nat → Option (Nat × Nat)
  | 0, i, _, acc, _ => some (i, acc)
  | k + 1, i, level, acc, budget =>
    match spec_refill s 81 i level budget with
    | none => none
    | some (i, level, budget) =>
      spec_bit_reconstruction s k i level (if !level then acc ||| 2 ^ k else acc)
        (budget - LOGICDATA_SAMPLE_RATE_US)

/-- Reference `commit_consumed(expected_tail, count)`: "attempts to advance `tail` by
`count` positions.  Succeeds only if `tail` is still equal to `expected_tail`". -/
def spec_commit_consumed (s : logicdata_ctx) (expected_tail count : Nat) :
    Bool × logicdata_ctx :=
  if s.tail = expected_tail then
    (true, { s with tail := (s.tail + count) % LOGICDATA_TRACE_HISTORY_MAX })
  else (false, s)

/-- Reference decode call: snapshot of `tail`, the start-bit search of the code, the
reference bit reconstruction with the budget initialised to half a bit-period, and
`commit_consumed(expected_tail, intervals_scanned - 1)`. -/
def spec_try_read_word (s : logicdata_ctx) (out_word : Nat) :
    Option (Bool × logicdata_ctx × Nat) :=
  let expected_tail := s.tail
  match sync_search s 65536 0 (decide (expected_tail % 2 = 0)) 0 with
  | none => none
  | some (i, level) =>
    match spec_bit_reconstruction s 32 i level 0 (LOGICDATA_SAMPLE_RATE_US / 2) with
    | none => some (false, s, out_word)
    | some (i, acc) =>
      match spec_commit_consumed s expected_tail (i - 1) with
      | (false, s1) => some (false, s1, out_word)
      | (true, s1) => some (true, s1, acc)

/-! ## A decode call racing the producer -/

/-- The part of `logicdata_try_read_word` after the bit loop (`if (mask) return false;`, the
commit block and the store to `*out_word`), run on the context `ctx1` the call finds at
that point; `fini` is the snapshot of `tail` taken at the start of the call. -/
def try_read_word_commit (ctx1 : logicdata_ctx) (fini mask i acc out_word : Nat) :
    Bool × logicdata_ctx × Nat :=
  if mask ≠ 0 then (false, ctx1, out_word)
  else
    match commit_block ctx1 fini i with
    | (false, ctx2) => (false, ctx2, out_word)
    | (true, ctx2) => (true, ctx2, acc)

/-- The body of `logicdata_try_read_word` when the producer pushes the samples `isr`
between the end of the bit loop and the commit block: the snapshot and the two loops see
`ctx`, the commit block sees `ld_push_all ctx isr`. -/
def try_read_word_racing (ctx : logicdata_ctx) (out_word : Nat) (isr : List Nat) :
    Option (Bool × logicdata_ctx × Nat) :=
  let fini := ctx.tail
  let level : Bool := decide (fini % 2 = 0)
  match sync_search ctx 65536 0 level 0 with
  | none => none
  | some (i, level) =>
    match bit_loop ctx 33 (1 <<< 31) i level 0 (LOGICDATA_SAMPLE_RATE_US / 2) 0 with
    | none => none
    | some (mask, i, acc) =>
      some (try_read_word_commit (ld_push_all ctx isr) fini mask i acc out_word)

/-! ## Edge levels (ghost state) -/

/-- The context together with a record of the accepted edges: for each slot the level of
the edge that recorded it (`none` while the slot was never written), and the level of the
most recently accepted edge. -/
structure ghost_ctx where
  ctx : logicdata_ctx
  edge_level : Fin 80 → Option Bool
  last_edge : Option Bool

/-- The test `level == sync` of `logicdata_gpio_isr`: the edge is accepted. -/
def isr_accepts (s : logicdata_ctx) (level : Bool) : Bool :=
  decide (level = decide (s.head % 2 ≠ 0))

/-- `logicdata_gpio_isr` with the record kept: an accepted edge is noted for the slot
`head` it is stored in and as the last accepted edge. -/
def logicdata_gpio_isr_ghost (g : ghost_ctx) (now : Nat) (level : Bool) : ghost_ctx :=
  if isr_accepts g.ctx level then
    { ctx := logicdata_gpio_isr g.ctx now level,
      edge_level :=
        if h : g.ctx.head < 80 then Function.update g.edge_level ⟨g.ctx.head, h⟩ (some level)
        else g.edge_level,
      last_edge := some level }
  else { g with ctx := logicdata_gpio_isr g.ctx now level }

/-- The recorded states reachable from the one `logicdata_init` sets up through edge
interrupts and decode calls that return. -/
inductive GhostReachable : ghost_ctx → Prop
  | init (now : Nat) :
      GhostReachable { ctx := logicdata_init now, edge_level := fun _ => none, last_edge := none }
  | isr (g : ghost_ctx) (now : Nat) (level : Bool) :
      GhostReachable g → GhostReachable (logicdata_gpio_isr_ghost g now level)
  | read (g : ghost_ctx) (out_word : Option Nat) (ok : Bool) (s1 : logicdata_ctx)
      (out1 : Option Nat) :
      GhostReachable g →
      logicdata_try_read_word (some g.ctx) out_word = some (ok, some s1, out1) →
      GhostReachable { g with ctx := s1 }

/-! ## Bit-level facts -/

theorem and_even_of_even (x m : Nat) (hm : m % 2 = 0) : (x &&& m) % 2 = 0 := by
  have h : (x &&& m).testBit 0 = false := by
    rw [Nat.testBit_and]
    have : m.testBit 0 = false := by simp [Nat.testBit_zero, hm]
    simp [this]
  rw [Nat.testBit_zero] at h
  have h2 : ¬ ((x &&& m) % 2 = 1) := by simpa using h
  omega

theorem ld_parity_loop_even (msg : Nat) :
    ∀ (n mask pc : Nat), mask % 2 = 0 → pc % 2 = 0 → ld_parity_loop msg n mask pc % 2 = 0 := by
  intro n
  induction n with
  | zero => intro mask pc _ hpc; simpa [ld_parity_loop] using hpc
  | succ n ih =>
    intro mask pc hm hpc
    unfold ld_parity_loop
    split
    · exact hpc
    · apply ih
      · omega
      · have := and_even_of_even msg mask hm
        omega

theorem ld_parity_id (msg : Nat) : ld_parity msg = msg := by
  unfold ld_parity
  have h := ld_parity_loop_even msg 17 2 0 (by decide) (by decide)
  simp [Nat.and_one_is_mod, h]

/-- Masking with `n` ones shifted up by `k` keeps the field `x / 2^k % 2^n` in place. -/
theorem and_field (x k n : Nat) : x &&& ((2 ^ n - 1) * 2 ^ k) = (x / 2 ^ k % 2 ^ n) * 2 ^ k := by
  apply Nat.eq_of_testBit_eq
  intro i
  rw [Nat.testBit_and, ← Nat.shiftLeft_eq, ← Nat.shiftLeft_eq, Nat.testBit_shiftLeft,
    Nat.testBit_shiftLeft, Nat.testBit_two_pow_sub_one,
    Nat.testBit_mod_two_pow, ← Nat.shiftRight_eq_div_pow, Nat.testBit_shiftRight]
  by_cases h : k ≤ i
  · have : k + (i - k) = i := by omega
    simp [h, this, Bool.and_comm]
  · simp [h]

theorem and_FFF00000 (x : Nat) : x &&& 0xFFF00000 = (x / 2 ^ 20 % 2 ^ 12) * 2 ^ 20 :=
  and_field x 20 12

theorem and_000FFE00 (x : Nat) : x &&& 0x000FFE00 = (x / 2 ^ 9 % 2 ^ 11) * 2 ^ 9 :=
  and_field x 9 11

theorem and_FFFFFE00 (x : Nat) : x &&& 0xFFFFFE00 = (x / 2 ^ 9 % 2 ^ 23) * 2 ^ 9 :=
  and_field x 9 23

theorem and_FFF (x : Nat) : x &&& 0xFFF = x % 2 ^ 12 :=
  Nat.and_pow_two_sub_one_eq_mod x 12

theorem logicdata_is_valid_iff (msg : Nat) :
    logicdata_is_valid msg = true ↔ msg &&& 0xFFF00000 = 0x40600000 := by
  unfold logicdata_is_valid ld_check_parity
  simp [ld_parity_id]

theorem logicdata_is_number_iff (msg : Nat) :
    logicdata_is_number msg = true ↔
      (msg &&& 0xFFF00000 = 0x40600000 ∧ msg &&& 0x000FFE00 = 0x00000400) := by
  unfold logicdata_is_number
  simp [logicdata_is_valid_iff]

/-- C5 (frame validity): for every 32-bit word the parity recomputation reproduces the
word, so `ld_check_parity` always succeeds, and `logicdata_is_valid` holds exactly when the
top 12 bits are the magic pattern `0x406`, i.e. `(msg & 0xFFF00000) = 0x40600000`. -/
theorem C5_frame_validity (msg : Nat) (h : msg < 2 ^ 32) :
    ld_parity msg = msg ∧ ld_check_parity msg = true ∧
    (logicdata_is_valid msg = true ↔ msg &&& 0xFFF00000 = 0x40600000) ∧
    (logicdata_is_valid msg = true ↔ msg >>> 20 = 0x406) := by
  refine ⟨ld_parity_id msg, by simp [ld_check_parity, ld_parity_id], logicdata_is_valid_iff msg, ?_⟩
  rw [logicdata_is_valid_iff, and_FFF00000, Nat.shiftRight_eq_div_pow]
  omega

theorem C5_witness :
    (0x40600400 : Nat) < 2 ^ 32 ∧ (ld_parity 0x40600400 = 0x40600400 ∧ ld_check_parity 0x40600400 = true ∧
    (logicdata_is_valid 0x40600400 = true ↔ 0x40600400 &&& 0xFFF00000 = 0x40600000) ∧
    (logicdata_is_valid 0x40600400 = true ↔ 0x40600400 >>> 20 = 0x406)) :=
  ⟨by decide, C5_frame_validity 0x40600400 (by decide)⟩

/-- C6 (number-frame test): for every 32-bit word, `logicdata_is_number` holds exactly when
the word is valid and the 12-bit field of bits 9..20 equals the tag `0x002`; equivalently
`(msg & 0xFFFFFE00) = 0x40600400`, which leaves exactly bits 0..8 free: the number frames
are the words `0x40600400 + x` with `x < 512`. -/
theorem C6_number_frame (msg : Nat) (h : msg < 2 ^ 32) :
    (logicdata_is_number msg = true ↔
      (logicdata_is_valid msg = true ∧ (msg >>> 9) &&& 0xFFF = 0x002)) ∧
    (logicdata_is_number msg = true ↔ msg &&& 0xFFFFFE00 = 0x40600400) ∧
    (logicdata_is_number msg = true ↔ ∃ x, x < 512 ∧ msg = 0x40600400 + x) := by
  rw [logicdata_is_number_iff, logicdata_is_valid_iff, and_FFF00000, and_000FFE00, and_FFFFFE00,
    and_FFF, Nat.shiftRight_eq_div_pow]
  refine ⟨by omega, by omega, ?_⟩
  constructor
  · intro hn
    exact ⟨msg - 0x40600400, by omega, by omega⟩
  · rintro ⟨x, hx, rfl⟩
    omega

theorem C6_witness :
    (logicdata_is_number 0x40600400 = true ↔
      (logicdata_is_valid 0x40600400 = true ∧ (0x40600400 >>> 9) &&& 0xFFF = 0x002)) ∧
    (logicdata_is_number 0x40600400 = true ↔ 0x40600400 &&& 0xFFFFFE00 = 0x40600400) ∧
    (logicdata_is_number 0x40600400 = true ↔ ∃ x, x < 512 ∧ 0x40600400 = 0x40600400 + x) :=
  C6_number_frame 0x40600400 (by decide)

theorem reverse_byte_lt (x : Nat) : reverse_byte x < 256 := by
  unfold reverse_byte
  exact Nat.mod_lt _ (by decide)

theorem reverse_byte_testBit (x k : Nat) (hk : k < 8) :
    (reverse_byte x).testBit k = x.testBit (7 - k) := by
  have t8 : ∀ m, Nat.testBit 8 m = decide (3 = m) := fun m => @Nat.testBit_two_pow 3 m
  have t4 : ∀ m, Nat.testBit 4 m = decide (2 = m) := fun m => @Nat.testBit_two_pow 2 m
  have t2 : ∀ m, Nat.testBit 2 m = decide (1 = m) := fun m => @Nat.testBit_two_pow 1 m
  have t1 : ∀ m, Nat.testBit 1 m = decide (0 = m) := fun m => @Nat.testBit_two_pow 0 m
  have h256 : ∀ y : Nat, y % 256 = y % 2 ^ 8 := fun _ => rfl
  unfold reverse_byte reverse_nibble
  simp only [h256, Nat.testBit_mod_two_pow, Nat.testBit_or, Nat.testBit_and, Nat.testBit_shiftLeft,
    Nat.testBit_shiftRight, Nat.zero_or, t8, t4, t2, t1]
  interval_cases k <;> simp

theorem shiftRight_one_mod_testBit (msg j : Nat) (hj : j < 8) :
    ((msg >>> 1) % 256).testBit j = msg.testBit (j + 1) := by
  have h256 : ∀ y : Nat, y % 256 = y % 2 ^ 8 := fun _ => rfl
  rw [h256, Nat.testBit_mod_two_pow, Nat.testBit_shiftRight]
  simp [hj, Nat.add_comm]

/-- C7 (height extraction): when `logicdata_is_number msg` holds, `logicdata_get_number msg`
is a byte whose bit `k` is bit `8 - k` of `msg` for `k = 0..7` (the low byte of `msg >> 1`
with its bit order reversed); otherwise the result is `0`, in particular for a word with
the magic bits and another type tag, which is valid and not a number. -/
theorem C7_height_extraction (msg : Nat) :
    (logicdata_is_number msg = true →
      logicdata_get_number msg < 256 ∧
      ∀ k, k < 8 → (logicdata_get_number msg).testBit k = msg.testBit (8 - k)) ∧
    (logicdata_is_number msg = false → logicdata_get_number msg = 0) ∧
    (msg &&& 0xFFF00000 = 0x40600000 → msg &&& 0x000FFE00 ≠ 0x00000400 →
      logicdata_is_valid msg = true ∧ logicdata_is_number msg = false ∧
      logicdata_get_number msg = 0) := by
  refine ⟨?_, ?_, ?_⟩
  · intro hn
    unfold logicdata_get_number
    rw [if_pos hn]
    refine ⟨reverse_byte_lt _, ?_⟩
    intro k hk
    rw [reverse_byte_testBit _ _ hk, shiftRight_one_mod_testBit _ _ (by omega)]
    congr 1
    omega
  · intro hn
    unfold logicdata_get_number
    simp [hn]
  · intro hm ht
    have hv : logicdata_is_valid msg = true := (logicdata_is_valid_iff msg).2 hm
    have hn : logicdata_is_number msg = false := by
      cases hb : logicdata_is_number msg with
      | false => rfl
      | true => exact absurd ((logicdata_is_number_iff msg).1 hb).2 ht
    refine ⟨hv, hn, ?_⟩
    unfold logicdata_get_number
    simp [hn]

/-! ## Ring buffer facts -/

theorem ld_size_eq (s : logicdata_ctx) (hh : s.head < 80) (ht : s.tail < 80) :
    ld_size s = (80 + s.head - s.tail) % 80 := by
  unfold ld_size LOGICDATA_TRACE_HISTORY_MAX
  rw [Int.tmod_eq_emod (by omega) (by omega)]
  omega

theorem ld_size_le (s : logicdata_ctx) (hh : s.head < 80) (ht : s.tail < 80) :
    ld_size s ≤ 79 := by
  rw [ld_size_eq s hh ht]; omega

theorem ld_next_lt (x : Nat) : ld_next x < 80 := by
  unfold ld_next LOGICDATA_TRACE_HISTORY_MAX; omega

theorem ld_next_ne (x : Nat) : ld_next x ≠ x := by
  unfold ld_next LOGICDATA_TRACE_HISTORY_MAX; omega

/-- C8 (peek bounds): with `head < 80` and `tail < 80`, `ld_size` is
`(80 + head - tail) % 80`; `ld_peek` returns `false` and hands `*out` back untouched when
`index >= ld_size`, and returns `true` with `*out = trace[(tail + index) % 80]` otherwise.
`ld_peek` only reads the context: it returns no new `head`, `tail` or `trace`. -/
theorem C8_peek_bounds (s : logicdata_ctx) (hh : s.head < 80) (ht : s.tail < 80)
    (index out : Nat) :
    ld_size s = (80 + s.head - s.tail) % 80 ∧
    (ld_size s ≤ index → ld_peek s index out = (false, out)) ∧
    (index < ld_size s →
      ld_peek s index out = (true, s.trace ⟨(s.tail + index) % 80, Nat.mod_lt _ (by decide)⟩)) := by
  refine ⟨ld_size_eq s hh ht, ?_, ?_⟩
  · intro h
    unfold ld_peek
    simp [Nat.not_lt.2 h]
  · intro h
    unfold ld_peek ld_peek_pos
    simp [h]

theorem C8_witness :
    ld_size (ld_push_isr (logicdata_init 0) 5) =
      (80 + (ld_push_isr (logicdata_init 0) 5).head - (ld_push_isr (logicdata_init 0) 5).tail) % 80 ∧
    (ld_size (ld_push_isr (logicdata_init 0) 5) ≤ 0 →
      ld_peek (ld_push_isr (logicdata_init 0) 5) 0 9 = (false, 9)) ∧
    (0 < ld_size (ld_push_isr (logicdata_init 0) 5) →
      ld_peek (ld_push_isr (logicdata_init 0) 5) 0 9 =
        (true, (ld_push_isr (logicdata_init 0) 5).trace
          ⟨((ld_push_isr (logicdata_init 0) 5).tail + 0) % 80, Nat.mod_lt _ (by decide)⟩)) :=
  C8_peek_bounds (ld_push_isr (logicdata_init 0) 5) (by decide) (by decide) 0 9

/-! ## The edge interrupt handler -/

/-- The sample an accepted edge stores. -/
theorem gpio_isr_of_match (s : logicdata_ctx) (now : Nat) (level : Bool)
    (hl : level = decide (s.head % 2 = 1)) :
    logicdata_gpio_isr s now level =
      { ld_push_isr s
          (if s.pin_idle = true ∨
              65536 ≤ (((now : Int) - (s.prev_bit_us : Int)) % 4294967296).toNat
            then LOGICDATA_BIG_IDLE
            else (((now : Int) - (s.prev_bit_us : Int)) % 4294967296).toNat) with
        pin_idle := false, prev_bit_us := now } := by
  have hsync : level = decide (s.head % 2 ≠ 0) := by
    rw [hl]; apply decide_eq_decide.2; omega
  unfold logicdata_gpio_isr LOGICDATA_IDLE_TIME_US
  by_cases hd : 65536 ≤ (((now : Int) - (s.prev_bit_us : Int)) % 4294967296).toNat
  · have hd' : (((now : Int) - (s.prev_bit_us : Int)) % 4294967296).toNat ≥ 65536 := hd
    simp only [hd', if_true]
    rw [if_pos hsync]
    simp [hd, ld_push_isr]
  · have hd' : ¬ (((now : Int) - (s.prev_bit_us : Int)) % 4294967296).toNat ≥ 65536 := hd
    simp only [hd', if_false]
    rw [if_pos hsync]
    simp [hd, ld_push_isr]

/-- An edge of the unexpected level only updates the idle flag. -/
theorem gpio_isr_of_mismatch (s : logicdata_ctx) (now : Nat) (level : Bool)
    (hl : level ≠ decide (s.head % 2 = 1)) :
    logicdata_gpio_isr s now level =
      { s with pin_idle := (s.pin_idle ||
          decide (65536 ≤ (((now : Int) - (s.prev_bit_us : Int)) % 4294967296).toNat)) } := by
  have hsync : ¬ level = decide (s.head % 2 ≠ 0) := by
    intro h
    apply hl
    rw [h]; apply decide_eq_decide.2; omega
  unfold logicdata_gpio_isr LOGICDATA_IDLE_TIME_US
  by_cases hd : 65536 ≤ (((now : Int) - (s.prev_bit_us : Int)) % 4294967296).toNat
  · have hd' : (((now : Int) - (s.prev_bit_us : Int)) % 4294967296).toNat ≥ 65536 := hd
    simp only [hd', if_true]
    rw [if_neg hsync]
    simp [hd]
  · have hd' : ¬ (((now : Int) - (s.prev_bit_us : Int)) % 4294967296).toNat ≥ 65536 := hd
    simp only [hd', if_false]
    rw [if_neg hsync]
    simp [hd]

/-- C9 (edge classification): one run of `logicdata_gpio_isr` with the inputs `now` and
`level` pushes the edge exactly when `level = (head is odd)`.  A pushed edge stores
`LOGICDATA_BIG_IDLE` when `pin_idle` was set or `(now - prev_bit_us) mod 2^32 >= 65536`, and
that difference otherwise, then clears `pin_idle` and sets `prev_bit_us = now`.  An edge that
is not pushed leaves `head`, `tail`, `trace` and `prev_bit_us` alone and can only raise
`pin_idle`. -/
theorem C9_edge_classification (s : logicdata_ctx) (now : Nat) (level : Bool) :
    let delta : Nat := (((now : Int) - (s.prev_bit_us : Int)) % 4294967296).toNat
    let v : Nat := if s.pin_idle = true ∨ 65536 ≤ delta then LOGICDATA_BIG_IDLE else delta
    let s1 := logicdata_gpio_isr s now level
    (s1.head ≠ s.head ↔ level = decide (s.head % 2 = 1)) ∧
    (level = decide (s.head % 2 = 1) →
      s1.head = ld_next s.head ∧ s1.tail = (ld_push_isr s v).tail ∧
      s1.trace = (ld_push_isr s v).trace ∧
      (∀ h : s.head < 80, s1.trace ⟨s.head, h⟩ = v) ∧
      s1.pin_idle = false ∧ s1.prev_bit_us = now) ∧
    (level ≠ decide (s.head % 2 = 1) →
      s1.head = s.head ∧ s1.tail = s.tail ∧ s1.trace = s.trace ∧
      s1.prev_bit_us = s.prev_bit_us ∧
      s1.pin_idle = (s.pin_idle || decide (65536 ≤ delta))) := by
  intro delta v s1
  by_cases hl : level = decide (s.head % 2 = 1)
  · have hs1 : s1 = { ld_push_isr s v with pin_idle := false, prev_bit_us := now } :=
      gpio_isr_of_match s now level hl
    refine ⟨?_, ?_, ?_⟩
    · rw [hs1]
      simp [hl, ld_push_isr, ld_next_ne]
    · intro _
      rw [hs1]
      refine ⟨rfl, rfl, rfl, ?_, rfl, rfl⟩
      intro h
      simp [ld_push_isr, h]
    · intro h; exact absurd hl h
  · have hs1 : s1 = { s with pin_idle := (s.pin_idle || decide (65536 ≤ delta)) } :=
      gpio_isr_of_mismatch s now level hl
    refine ⟨?_, ?_, ?_⟩
    · rw [hs1]
      simp [hl]
    · intro h; exact absurd h hl
    · intro _
      rw [hs1]
      exact ⟨rfl, rfl, rfl, rfl, rfl⟩

/-! ## The readable contents of the ring -/

theorem ld_peek_pos_val (s : logicdata_ctx) (i : Nat) : (ld_peek_pos s i).val = (s.tail + i) % 80 := rfl

theorem ld_view_length (s : logicdata_ctx) : (ld_view s).length = ld_size s := by
  simp [ld_view]

theorem ld_view_getElem (s : logicdata_ctx) (i : Nat) (h : i < (ld_view s).length) :
    (ld_view s)[i] = s.trace (ld_peek_pos s i) := by
  have hi : i < ld_size s := by simpa [ld_view_length] using h
  simp [ld_view, ld_peek, hi]

theorem ld_peek_of_lt (s : logicdata_ctx) (i out : Nat) (h : i < ld_size s) :
    ld_peek s i out = (true, s.trace (ld_peek_pos s i)) := by
  simp [ld_peek, h]

theorem ld_peek_of_ge (s : logicdata_ctx) (i out : Nat) (h : ld_size s ≤ i) :
    ld_peek s i out = (false, out) := by
  simp [ld_peek, Nat.not_lt.2 h]

/-- `ld_peek` reads the readable contents by position. -/
theorem ld_peek_eq_view (s : logicdata_ctx) (i out : Nat) :
    ld_peek s i out = match (ld_view s)[i]? with
      | some v => (true, v)
      | none => (false, out) := by
  by_cases h : i < ld_size s
  · have h2 : i < (ld_view s).length := by simpa [ld_view_length] using h
    rw [List.getElem?_eq_getElem h2, ld_view_getElem s i h2, ld_peek_of_lt s i out h]
  · have h2 : (ld_view s).length ≤ i := by simpa [ld_view_length] using h
    rw [List.getElem?_eq_none h2, ld_peek_of_ge s i out (Nat.not_lt.1 h)]

theorem ld_push_isr_head (s : logicdata_ctx) (v : Nat) : (ld_push_isr s v).head = (s.head + 1) % 80 := rfl

theorem ld_push_isr_tail (s : logicdata_ctx) (v : Nat) :
    (ld_push_isr s v).tail = if (s.head + 1) % 80 = s.tail then (s.tail + 1) % 80 else s.tail := rfl

theorem ld_push_isr_trace (s : logicdata_ctx) (v : Nat) (hh : s.head < 80) (k : Fin 80) :
    (ld_push_isr s v).trace k = if k.val = s.head then v else s.trace k := by
  unfold ld_push_isr
  simp only [hh, dite_true, Function.update_apply]
  by_cases hk : k.val = s.head
  · have : k = ⟨s.head, hh⟩ := Fin.ext hk
    simp [this]
  · have : k ≠ ⟨s.head, hh⟩ := fun h => hk (congrArg Fin.val h)
    simp [this, hk]

theorem ld_push_isr_head_lt (s : logicdata_ctx) (v : Nat) : (ld_push_isr s v).head < 80 := by
  rw [ld_push_isr_head]; omega

theorem ld_push_isr_tail_lt (s : logicdata_ctx) (v : Nat) (ht : s.tail < 80) :
    (ld_push_isr s v).tail < 80 := by
  rw [ld_push_isr_tail]; split <;> omega

/-- One push appends the sample and, on a full ring, drops the oldest one. -/
theorem ld_view_push (s : logicdata_ctx) (v : Nat) (hh : s.head < 80) (ht : s.tail < 80) :
    ld_view (ld_push_isr s v) = (ld_view s ++ [v]).drop (ld_size s + 1 - 79) := by
  have hsz := ld_size_eq s hh ht
  have hh1 := ld_push_isr_head_lt s v
  have ht1 := ld_push_isr_tail_lt s v ht
  have hsz1 := ld_size_eq (ld_push_isr s v) hh1 ht1
  rw [ld_push_isr_head, ld_push_isr_tail] at hsz1
  have hlen : (ld_view (ld_push_isr s v)).length = ((ld_view s ++ [v]).drop (ld_size s + 1 - 79)).length := by
    simp only [ld_view_length, List.length_drop, List.length_append, List.length_singleton]
    rw [hsz1, hsz]
    split <;> omega
  apply List.ext_getElem hlen
  intro j h1 h2
  rw [ld_view_getElem, ld_push_isr_trace s v hh, ld_peek_pos_val, ld_push_isr_tail, List.getElem_drop]
  have hj : j < ld_size (ld_push_isr s v) := by simpa [ld_view_length] using h1
  rw [hsz1] at hj
  by_cases hfull : (s.head + 1) % 80 = s.tail
  · simp only [hfull, if_true] at hj ⊢
    have hd : ld_size s + 1 - 79 = 1 := by rw [hsz]; omega
    simp only [hd]
    by_cases hlast : j = 78
    · have : ((s.tail + 1) % 80 + j) % 80 = s.head := by omega
      rw [if_pos this, List.getElem_append_right (by simp [ld_view_length]; omega)]
      simp
    · have : ¬ ((s.tail + 1) % 80 + j) % 80 = s.head := by omega
      rw [if_neg this, List.getElem_append_left (by simp [ld_view_length]; omega), ld_view_getElem]
      congr 1
      apply Fin.ext
      simp only [ld_peek_pos_val, ld_push_isr_tail, hfull, if_true]
      omega
  · simp only [hfull, if_false] at hj ⊢
    have hd : ld_size s + 1 - 79 = 0 := by rw [hsz]; omega
    simp only [hd]
    by_cases hlast : j = ld_size s
    · have : (s.tail + j) % 80 = s.head := by rw [hlast, hsz]; omega
      rw [if_pos this, List.getElem_append_right (by simp [ld_view_length]; omega)]
      simp
    · have hjlt : j < ld_size s := by rw [hsz]; rw [hsz] at hlast; omega
      have : ¬ (s.tail + j) % 80 = s.head := by rw [hsz] at hjlt; omega
      rw [if_neg this, List.getElem_append_left (by simp [ld_view_length]; omega), ld_view_getElem]
      congr 1
      apply Fin.ext
      simp only [ld_peek_pos_val, ld_push_isr_tail, hfull, if_false]
      omega

theorem ld_push_all_nil (s : logicdata_ctx) : ld_push_all s [] = s := rfl

theorem ld_push_all_cons (s : logicdata_ctx) (v : Nat) (vs : List Nat) :
    ld_push_all s (v :: vs) = ld_push_all (ld_push_isr s v) vs := rfl

theorem ld_push_all_bounds (vs : List Nat) :
    ∀ s : logicdata_ctx, s.head < 80 → s.tail < 80 →
      (ld_push_all s vs).head < 80 ∧ (ld_push_all s vs).tail < 80 := by
  induction vs with
  | nil => intro s hh ht; exact ⟨hh, ht⟩
  | cons v vs ih =>
    intro s hh ht
    rw [ld_push_all_cons]
    exact ih _ (ld_push_isr_head_lt s v) (ld_push_isr_tail_lt s v ht)

theorem ld_view_push_all (vs : List Nat) :
    ∀ s : logicdata_ctx, s.head < 80 → s.tail < 80 →
      ld_view (ld_push_all s vs) =
        (ld_view s ++ vs).drop
          ((ld_view s ++ vs).length - min ((ld_view s).length + vs.length) 79) := by
  induction vs with
  | nil =>
    intro s hh ht
    have hle := ld_size_le s hh ht
    have h0 : (ld_view s ++ []).length - min ((ld_view s).length + ([] : List Nat).length) 79 = 0 := by
      simp only [List.append_nil, List.length_nil, ld_view_length]
      omega
    rw [h0, ld_push_all_nil]
    simp
  | cons v vs ih =>
    intro s hh ht
    have hle := ld_size_le s hh ht
    rw [ld_push_all_cons, ih _ (ld_push_isr_head_lt s v) (ld_push_isr_tail_lt s v ht),
      ld_view_push s v hh ht]
    have hb : ld_size s + 1 - 79 ≤ (ld_view s ++ [v]).length := by
      simp [ld_view_length]; omega
    rw [← List.drop_append_of_le_length hb, List.drop_drop]
    have happ : ld_view s ++ [v] ++ vs = ld_view s ++ v :: vs := by simp
    rw [happ]
    congr 1
    simp only [List.length_drop, List.length_append, List.length_cons, List.length_nil,
      ld_view_length]
    omega

/-- C2 (lossy FIFO ring): with `head < 80` and `tail < 80` and readable contents `L`,
pushing `vs` in order with `ld_push_isr` leaves as readable contents exactly the last
`min (|L| + |vs|) 79` elements of `L ++ vs`, in order: at most 79 samples are retained and
only the oldest are dropped. -/
theorem C2_lossy_fifo (s : logicdata_ctx) (hh : s.head < 80) (ht : s.tail < 80)
    (L vs : List Nat) (hL : ld_view s = L) :
    ld_view (ld_push_all s vs) =
      (L ++ vs).drop ((L ++ vs).length - min (L.length + vs.length) 79) ∧
    (ld_view (ld_push_all s vs)).length = min (L.length + vs.length) 79 ∧
    (ld_view (ld_push_all s vs)).length ≤ 79 := by
  subst hL
  have h := ld_view_push_all vs s hh ht
  have hlen : (ld_view (ld_push_all s vs)).length = min ((ld_view s).length + vs.length) 79 := by
    rw [h]
    simp only [List.length_drop, List.length_append]
    omega
  exact ⟨h, hlen, by omega⟩

theorem C2_witness :
    ld_view (ld_push_all (ld_push_all (logicdata_init 0) [7, 8]) [1, 2, 3]) =
      ([7, 8] ++ [1, 2, 3]).drop
        (([7, 8] ++ [1, 2, 3]).length - min ([7, 8].length + [1, 2, 3].length) 79) ∧
    (ld_view (ld_push_all (ld_push_all (logicdata_init 0) [7, 8]) [1, 2, 3])).length =
      min ([7, 8].length + [1, 2, 3].length) 79 ∧
    (ld_view (ld_push_all (ld_push_all (logicdata_init 0) [7, 8]) [1, 2, 3])).length ≤ 79 :=
  C2_lossy_fifo (ld_push_all (logicdata_init 0) [7, 8]) (by decide) (by decide)
    [7, 8] [1, 2, 3] (by decide)

/-! ## Bit lists and run lengths -/

theorem bits_msb_length (n w : Nat) : (bits_msb n w).length = n := by
  induction n with
  | zero => rfl
  | succ n ih => simp [bits_msb, ih]

theorem expand_rle_aux (bs : List Bool) :
    ∀ (cur : Bool) (cnt : Nat), expand_runs cur (rle_aux cur cnt bs) = List.replicate cnt cur ++ bs := by
  induction bs with
  | nil => intro cur cnt; simp [rle_aux, expand_runs]
  | cons b bs ih =>
    intro cur cnt
    unfold rle_aux
    by_cases hb : b = cur
    · rw [if_pos hb, ih, hb, List.replicate_succ']
      simp
    · rw [if_neg hb]
      have hnot : (!cur) = b := by cases b <;> cases cur <;> simp_all
      unfold expand_runs
      rw [hnot, ih]
      simp [List.replicate]

theorem rle_aux_sum (bs : List Bool) :
    ∀ (cur : Bool) (cnt : Nat), (rle_aux cur cnt bs).sum = cnt + bs.length := by
  induction bs with
  | nil => intro cur cnt; simp [rle_aux]
  | cons b bs ih =>
    intro cur cnt
    unfold rle_aux
    split
    · rw [ih]; simp; omega
    · simp [ih]; omega

theorem rle_aux_pos (bs : List Bool) :
    ∀ (cur : Bool) (cnt : Nat), 1 ≤ cnt → ∀ r ∈ rle_aux cur cnt bs, 1 ≤ r := by
  induction bs with
  | nil => intro cur cnt h r hr; simp [rle_aux] at hr; omega
  | cons b bs ih =>
    intro cur cnt h r hr
    unfold rle_aux at hr
    split at hr
    · exact ih cur (cnt + 1) (by omega) r hr
    · rcases List.mem_cons.1 hr with h1 | h1
      · omega
      · exact ih b 1 (by omega) r h1

theorem rle_aux_length (bs : List Bool) :
    ∀ (cur : Bool) (cnt : Nat), (rle_aux cur cnt bs).length ≤ 1 + bs.length := by
  induction bs with
  | nil => intro cur cnt; simp [rle_aux]
  | cons b bs ih =>
    intro cur cnt
    unfold rle_aux
    split
    · have := ih cur (cnt + 1); simp; omega
    · have := ih b 1; simp; omega

theorem run_lengths_expand (w : Nat) :
    expand_runs (w.testBit 31) (run_lengths w) = bits_msb 32 w := by
  unfold run_lengths
  show expand_runs (w.testBit 31) (rle_aux (w.testBit 31) 1 (bits_msb 31 w)) = _
  rw [expand_rle_aux]
  rfl

theorem run_lengths_sum (w : Nat) : (run_lengths w).sum = 32 := by
  unfold run_lengths
  show (rle_aux (w.testBit 31) 1 (bits_msb 31 w)).sum = 32
  rw [rle_aux_sum, bits_msb_length]

theorem run_lengths_pos (w : Nat) : ∀ r ∈ run_lengths w, 1 ≤ r := by
  unfold run_lengths
  show ∀ r ∈ rle_aux (w.testBit 31) 1 (bits_msb 31 w), 1 ≤ r
  exact rle_aux_pos _ _ _ (by omega)

theorem run_lengths_length (w : Nat) : (run_lengths w).length ≤ 32 := by
  unfold run_lengths
  show (rle_aux (w.testBit 31) 1 (bits_msb 31 w)).length ≤ 32
  have := rle_aux_length (bits_msb 31 w) (w.testBit 31) 1
  rw [bits_msb_length] at this
  omega

/-- A word whose bit 31 is clear and bit 30 set starts with a run of length one. -/
theorem run_lengths_head (w : Nat) (h31 : w.testBit 31 = false) (h30 : w.testBit 30 = true) :
    run_lengths w = 1 :: rle_aux true 1 (bits_msb 30 w) := by
  unfold run_lengths
  show rle_aux (w.testBit 31) 1 (w.testBit 30 :: bits_msb 30 w) = _
  rw [h31, h30]
  simp [rle_aux]

theorem acc_bits_append (xs : List Bool) :
    ∀ (n acc : Nat) (ys : List Bool),
      acc_bits n acc (xs ++ ys) = acc_bits (n - xs.length) (acc_bits n acc xs) ys := by
  induction xs with
  | nil => intro n acc ys; simp [acc_bits]
  | cons x xs ih =>
    intro n acc ys
    rw [List.cons_append]
    simp only [acc_bits, List.length_cons]
    rw [ih]
    congr 1
    omega

theorem or_two_pow_eq_add (acc n : Nat) (h : acc % 2 ^ (n + 1) = 0) :
    acc ||| 2 ^ n = acc + 2 ^ n := by
  have hlt : 2 ^ n < 2 ^ (n + 1) := Nat.pow_lt_pow_right (by decide) (by omega)
  have hacc : acc = 2 ^ (n + 1) * (acc / 2 ^ (n + 1)) := by
    have := Nat.div_add_mod acc (2 ^ (n + 1))
    omega
  rw [hacc, ← Nat.mul_add_lt_is_or hlt]

theorem acc_bits_bits_msb (w : Nat) :
    ∀ (n acc : Nat), acc % 2 ^ n = 0 → acc_bits n acc (bits_msb n w) = acc + w % 2 ^ n := by
  intro n
  induction n with
  | zero => intro acc _; simp [bits_msb, acc_bits, Nat.mod_one]
  | succ n ih =>
    intro acc hacc
    have hhalf : 2 ^ (n + 1) / 2 = 2 ^ n := by
      rw [Nat.pow_succ]; omega
    have hmod : w % 2 ^ (n + 1) = (w.testBit n).toNat * 2 ^ n + w % 2 ^ n := by
      rw [Nat.toNat_testBit, Nat.pow_succ, Nat.mod_mul]
      ring
    simp only [bits_msb, acc_bits, Nat.add_sub_cancel, hhalf]
    have hp : 0 < 2 ^ n := Nat.pos_pow_of_pos n (by decide)
    have hacc2 : acc % 2 ^ n = 0 := by
      have : 2 ^ n ∣ acc := Nat.dvd_trans ⟨2, by rw [Nat.pow_succ]⟩ (Nat.dvd_of_mod_eq_zero hacc)
      exact Nat.mod_eq_zero_of_dvd this
    cases hb : w.testBit n with
    | false =>
      simp only [Bool.false_eq_true, if_false]
      rw [ih acc hacc2, hmod, hb]
      simp
    | true =>
      simp only [if_true]
      rw [or_two_pow_eq_add acc n hacc, ih _ (by rw [Nat.add_mod, hacc2]; simp), hmod, hb]
      simp
      omega

theorem acc_bits_word (w : Nat) (hw : w < 2 ^ 32) : acc_bits 32 0 (bits_msb 32 w) = w := by
  rw [acc_bits_bits_msb w 32 0 (by simp), Nat.mod_eq_of_lt hw]
  simp

/-- Exact multiples of the bit-period lie on the sampling grid. -/
theorem on_grid_exact (rs : List Nat) (h : ∀ r ∈ rs, 1 ≤ r) :
    on_grid 500 rs (rs.map fun r => 1000 * r) := by
  induction rs with
  | nil => simp [on_grid]
  | cons r rs ih =>
    have hr : 1 ≤ r := h r (List.mem_cons_self _ _)
    simp only [List.map_cons, on_grid]
    have h500 : 500 + 1000 * r - 1000 * r = 500 := by omega
    rw [h500]
    exact ⟨hr, by omega, by omega, ih (fun r' hr' => h r' (List.mem_cons_of_mem _ hr'))⟩

/-! ## The bit reconstruction loop on a sampling grid -/

theorem half_pow_ne_zero (n : Nat) (h : 1 ≤ n) : 2 ^ n / 2 ≠ 0 := by
  obtain ⟨k, rfl⟩ : ∃ k, n = k + 1 := ⟨n - 1, by omega⟩
  have hp : 0 < 2 ^ k := Nat.pos_pow_of_pos k (by decide)
  rw [Nat.pow_succ]
  omega

theorem half_pow_shift (n : Nat) : (2 ^ n / 2) >>> 1 = 2 ^ (n - 1) / 2 := by
  rw [Nat.shiftRight_eq_div_pow]
  cases n with
  | zero => simp
  | succ k =>
    rw [Nat.pow_succ]
    simp

/-- While the budget covers `m` more sampling points the loop emits `m` bits of the
current level without reading the buffer. -/
theorem bit_loop_sample (s : logicdata_ctx) (m : Nat) :
    ∀ (f n i : Nat) (level : Bool) (acc d t : Nat), m ≤ n → n ≤ 32 → d < 1000 →
      bit_loop s (f + m) (2 ^ n / 2) i level acc (1000 * m + d) t =
        bit_loop s f (2 ^ (n - m) / 2) i level
          (acc_bits n acc (List.replicate m (!level))) d t := by
  induction m with
  | zero => intro f n i level acc d t _ _ _; simp [acc_bits]
  | succ m ih =>
    intro f n i level acc d t hmn hn hd
    have hmask : 2 ^ n / 2 ≠ 0 := half_pow_ne_zero n (by omega)
    have hge : ¬ (1000 * (m + 1) + d < LOGICDATA_SAMPLE_RATE_US) := by
      unfold LOGICDATA_SAMPLE_RATE_US; omega
    have hsub : (1000 * (m + 1) + d + 4294967296 - LOGICDATA_SAMPLE_RATE_US) % 4294967296
        = 1000 * m + d := by
      unfold LOGICDATA_SAMPLE_RATE_US; omega
    rw [show f + (m + 1) = (f + m) + 1 from rfl]
    rw [bit_loop]
    simp only [hmask, if_false, hge, hsub, half_pow_shift]
    rw [ih f (n - 1) i level _ d t (by omega) (by omega) hd]
    simp only [List.replicate_succ, acc_bits]
    have : n - 1 - m = n - (m + 1) := by omega
    rw [this]

/-- Consuming one interval that carries the budget over `r` sampling points emits `r`
bits of the level before the edge. -/
theorem bit_loop_consume (s : logicdata_ctx) (f n i r : Nat) (level : Bool)
    (acc d t tv : Nat) (hr : 1 ≤ r) (hrn : r ≤ n) (hn : n ≤ 32) (hd : d < 1000)
    (hi : i + 1 < 65536) (hv : (ld_view s)[i + 1]? = some tv)
    (hlo : 1000 * r ≤ d + tv) (hhi : d + tv - 1000 * r < 1000) :
    bit_loop s (f + r) (2 ^ n / 2) i level acc d t =
      bit_loop s f (2 ^ (n - r) / 2) (i + 1) (!level)
        (acc_bits n acc (List.replicate r level)) (d + tv - 1000 * r) tv := by
  obtain ⟨m, rfl⟩ : ∃ m, r = m + 1 := ⟨r - 1, by omega⟩
  have hmask : 2 ^ n / 2 ≠ 0 := half_pow_ne_zero n (by omega)
  have hlt : d < LOGICDATA_SAMPLE_RATE_US := hd
  have hmod : (i + 1) % 65536 = i + 1 := Nat.mod_eq_of_lt hi
  have hpeek : ld_peek s (i + 1) t = (true, tv) := by
    rw [ld_peek_eq_view, hv]
  have hadd : (d + tv) % 4294967296 = d + tv := Nat.mod_eq_of_lt (by omega)
  have hsub : (d + tv + 4294967296 - LOGICDATA_SAMPLE_RATE_US) % 4294967296
      = 1000 * m + (d + tv - 1000 * (m + 1)) := by
    unfold LOGICDATA_SAMPLE_RATE_US; omega
  rw [show f + (m + 1) = (f + m) + 1 from rfl]
  rw [bit_loop]
  simp only [hmask, if_false, hlt, if_true, hmod, hpeek, hadd, hsub, half_pow_shift]
  rw [bit_loop_sample s m f (n - 1) (i + 1) (!level) _ _ tv (by omega) (by omega) hhi]
  simp only [List.replicate_succ, acc_bits]
  have : n - 1 - m = n - (m + 1) := by omega
  rw [this]
  cases level <;> simp

/-- Intervals that lie on the sampling grid and fill the remaining `n` bits decode to the
bit list of their run lengths; the loop ends on the last interval. -/
theorem bit_loop_on_grid (s : logicdata_ctx) (rs : List Nat) :
    ∀ (tvs : List Nat) (n i : Nat) (level : Bool) (acc d t : Nat) (rest : List Nat),
      on_grid d rs tvs → rs.sum = n → n ≤ 32 → d < 1000 → i + tvs.length < 65536 →
      (ld_view s).drop (i + 1) = tvs ++ rest →
      bit_loop s (rs.sum + 1) (2 ^ n / 2) i level acc d t =
        some (0, i + tvs.length, acc_bits n acc (expand_runs level rs)) := by
  induction rs with
  | nil =>
    intro tvs n i level acc d t rest hg hsum hn hd hi hv
    cases tvs with
    | nil =>
      simp only [List.sum_nil] at hsum
      subst hsum
      simp [bit_loop, expand_runs, acc_bits]
    | cons tv tvs => simp [on_grid] at hg
  | cons r rs ih =>
    intro tvs n i level acc d t rest hg hsum hn hd hi hv
    cases tvs with
    | nil => simp [on_grid] at hg
    | cons tv tvs =>
      simp only [on_grid] at hg
      obtain ⟨hr, hlo, hhi, hg'⟩ := hg
      simp only [List.sum_cons] at hsum
      simp only [List.length_cons] at hi
      have hv1 : (ld_view s)[i + 1]? = some tv := by
        have := congrArg (fun l => l[0]?) hv
        simpa [List.getElem?_drop] using this
      have hv2 : (ld_view s).drop (i + 1 + 1) = tvs ++ rest := by
        have := congrArg (fun l => l.drop 1) hv
        simpa [List.drop_drop, Nat.add_comm] using this
      rw [List.sum_cons, show r + rs.sum + 1 = (rs.sum + 1) + r by omega]
      rw [bit_loop_consume s (rs.sum + 1) n i r level acc d t tv hr (by omega) hn hd (by omega)
        hv1 hlo hhi]
      rw [ih tvs (n - r) (i + 1) (!level) _ _ tv rest hg' (by omega) (by omega) hhi (by omega) hv2]
      simp only [expand_runs, List.length_cons]
      rw [acc_bits_append, List.length_replicate,
        show i + 1 + tvs.length = i + (tvs.length + 1) by omega]

/-! ## Decoding a buffered frame -/

theorem ld_push_all_no_wrap (vs : List Nat) :
    ∀ s : logicdata_ctx, s.tail = 0 → s.head + vs.length ≤ 79 →
      (ld_push_all s vs).tail = 0 ∧ (ld_push_all s vs).head = s.head + vs.length := by
  induction vs with
  | nil => intro s ht _; exact ⟨ht, rfl⟩
  | cons v vs ih =>
    intro s ht hlen
    simp only [List.length_cons] at hlen
    rw [ld_push_all_cons]
    have h1 : (ld_push_isr s v).tail = 0 := by
      rw [ld_push_isr_tail, ht]
      split <;> omega
    have h2 : (ld_push_isr s v).head = s.head + 1 := by
      rw [ld_push_isr_head]; omega
    obtain ⟨ha, hb⟩ := ih (ld_push_isr s v) h1 (by rw [h2]; omega)
    exact ⟨ha, by rw [hb, h2, List.length_cons]; omega⟩

theorem ld_view_empty (s : logicdata_ctx) (hh : s.head < 80) (h : s.head = s.tail) :
    ld_view s = [] := by
  have hs : ld_size s = 0 := by
    rw [ld_size_eq s hh (by omega), h]; omega
  apply List.eq_nil_of_length_eq_zero
  rw [ld_view_length, hs]

/-- Pushing at most 79 samples into an empty ring at slot 0 makes them the readable
contents. -/
theorem ld_view_push_all_fresh (s : logicdata_ctx) (hh : s.head = 0) (ht : s.tail = 0)
    (vs : List Nat) (hlen : vs.length ≤ 79) : ld_view (ld_push_all s vs) = vs := by
  rw [ld_view_push_all vs s (by omega) (by omega),
    ld_view_empty s (by omega) (by omega)]
  simp only [List.nil_append, List.length_nil, Nat.zero_add]
  rw [Nat.min_eq_left hlen, Nat.sub_self, List.drop_zero]

/-- The start-bit search on a ring whose second sample is a long low period followed by
a short high pulse. -/
theorem sync_search_second (s : logicdata_ctx) (a big t1 : Nat) (rest : List Nat)
    (hv : ld_view s = a :: big :: t1 :: rest) (hbig : 40000 < big) (ht1 : t1 < 2000) :
    sync_search s 65536 0 true 0 = some (1, false) := by
  have p0 : ∀ t, ld_peek s 0 t = (true, a) := by intro t; rw [ld_peek_eq_view, hv]; simp
  have p1 : ∀ t, ld_peek s 1 t = (true, big) := by intro t; rw [ld_peek_eq_view, hv]; simp
  have p2 : ∀ t, ld_peek s 2 t = (true, t1) := by intro t; rw [ld_peek_eq_view, hv]; simp
  rw [show (65536 : Nat) = 65534 + 1 + 1 from rfl]
  rw [sync_search, p0]
  simp only [Bool.not_true, Bool.false_and, Bool.false_eq_true, if_false]
  rw [show (0 + 1) % 65536 = 1 from rfl, sync_search, p1]
  rw [show (1 + 1) % 65536 = 2 from rfl, p2]
  simp [LOGICDATA_SAMPLE_RATE_US, hbig, ht1]

/-- A frame word with a payload byte and a free bit 0 is the sum of its fields. -/
theorem frame_word_eq (p b0 : Nat) (hp : p < 256) (hb : b0 < 2) :
    0x40600400 ||| (p <<< 1) ||| b0 = 0x40600400 + 2 * p + b0 := by
  have hb1 : b0 < 2 ^ 1 := by simpa using hb
  have h1 : p <<< 1 ||| b0 = 2 * p + b0 := by
    rw [Nat.shiftLeft_eq, Nat.mul_comm]
    simpa using (Nat.mul_add_lt_is_or hb1 p).symm
  have hlt : 2 * p + b0 < 2 ^ 9 := by
    have : (2 : Nat) ^ 9 = 512 := by norm_num
    omega
  have h2 : (0x40600400 : Nat) = 2 ^ 9 * 0x203002 := by norm_num
  have h3 := Nat.mul_add_lt_is_or hlt 0x203002
  rw [Nat.lor_assoc, h1, h2, ← h3]
  omega

/-! ## The decoder returns on every well-formed ring -/

theorem sync_search_total (s : logicdata_ctx) (hsz : ld_size s < 65536) (n : Nat) :
    ∀ (i : Nat) (level : Bool) (t : Nat), i ≤ ld_size s → ld_size s - i < n →
      ∃ r, sync_search s n i level t = some r := by
  induction n with
  | zero => intro i level t _ h; omega
  | succ n ih =>
    intro i level t hi hn
    rw [sync_search]
    by_cases hlt : i < ld_size s
    · rw [ld_peek_of_lt s i t hlt]
      have hmod : (i + 1) % 65536 = i + 1 := Nat.mod_eq_of_lt (by omega)
      rw [hmod]
      dsimp only
      split
      · split
        · exact ⟨_, rfl⟩
        · exact ih _ _ _ (by omega) (by omega)
      · exact ih _ _ _ (by omega) (by omega)
    · rw [ld_peek_of_ge s i t (by omega)]
      exact ⟨_, rfl⟩

theorem bit_loop_total (s : logicdata_ctx) (n : Nat) :
    ∀ (mask i : Nat) (level : Bool) (acc t_meas t : Nat), mask < 2 ^ n →
      ∃ r, bit_loop s (n + 1) mask i level acc t_meas t = some r := by
  induction n with
  | zero =>
    intro mask i level acc t_meas t hm
    have : mask = 0 := by simpa using hm
    subst this
    exact ⟨(0, i, acc), by simp [bit_loop]⟩
  | succ n ih =>
    intro mask i level acc t_meas t hm
    have hshift : mask >>> 1 < 2 ^ n := by
      rw [Nat.shiftRight_eq_div_pow]
      rw [Nat.pow_succ] at hm
      omega
    rw [bit_loop]
    split
    · exact ⟨_, rfl⟩
    · split
      · split
        · exact ⟨_, rfl⟩
        · exact ih _ _ _ _ _ _ hshift
      · exact ih _ _ _ _ _ _ hshift

/-- On a ring with `head < 80` and `tail < 80` the call returns. -/
theorem try_read_word_body_total (s : logicdata_ctx) (hh : s.head < 80) (ht : s.tail < 80)
    (o : Nat) : ∃ r, try_read_word_body s o = some r := by
  have hsz := ld_size_le s hh ht
  obtain ⟨r1, h1⟩ := sync_search_total s (by omega) 65536 0 (decide (s.tail % 2 = 0)) 0
    (by omega) (by omega)
  obtain ⟨i, level⟩ := r1
  have hmask : (1 : Nat) <<< 31 < 2 ^ 32 := by rw [Nat.shiftLeft_eq]; norm_num
  obtain ⟨r2, h2⟩ := bit_loop_total s 32 (1 <<< 31) i level 0 (LOGICDATA_SAMPLE_RATE_US / 2) 0
    hmask
  obtain ⟨mask, i2, acc⟩ := r2
  unfold try_read_word_body
  dsimp only
  rw [h1]
  dsimp only
  rw [h2]
  dsimp only
  split
  · exact ⟨_, rfl⟩
  · split <;> exact ⟨_, rfl⟩

/-- A frame buffered behind one high sample: a long low period, then intervals on the
sampling grid of the run lengths of `w`.  The call returns `w` and leaves the last two
consumed intervals buffered. -/
theorem try_read_word_body_frame (s : logicdata_ctx) (hte : s.tail % 2 = 0)
    (a big w out0 : Nat) (tvs rest : List Nat) (hw : w < 2 ^ 32)
    (h31 : w.testBit 31 = false) (h30 : w.testBit 30 = true)
    (hv : ld_view s = a :: big :: (tvs ++ rest)) (hbig : 40000 < big)
    (hg : on_grid 500 (run_lengths w) tvs) (hlen : tvs.length < 65535) :
    try_read_word_body s out0 =
      some (true, { s with tail := (s.tail + tvs.length) % 80 }, w) := by
  have hhead := run_lengths_head w h31 h30
  obtain ⟨t1, tvs1, rfl⟩ : ∃ t1 tvs1, tvs = t1 :: tvs1 := by
    cases tvs with
    | nil => rw [hhead] at hg; simp [on_grid] at hg
    | cons t1 tvs1 => exact ⟨t1, tvs1, rfl⟩
  have ht1 : t1 < 2000 := by
    rw [hhead] at hg
    simp only [on_grid] at hg
    omega
  have hsync := sync_search_second s a big t1 (tvs1 ++ rest) (by simpa using hv) hbig ht1
  have hdrop : (ld_view s).drop (1 + 1) = (t1 :: tvs1) ++ rest := by rw [hv]; rfl
  have hbits := bit_loop_on_grid s (run_lengths w) (t1 :: tvs1) 32 1 false 0 500 0 rest hg
    (run_lengths_sum w) (by omega) (by omega) (by omega) hdrop
  have hexp : expand_runs false (run_lengths w) = bits_msb 32 w := by
    rw [← h31]; exact run_lengths_expand w
  rw [run_lengths_sum, hexp, acc_bits_word w hw] at hbits
  have hpow : (2 : Nat) ^ 32 / 2 = 2147483648 := by norm_num
  rw [hpow] at hbits
  have hmask : (1 : Nat) <<< 31 = 2147483648 := by rw [Nat.shiftLeft_eq]
  have hhalf : LOGICDATA_SAMPLE_RATE_US / 2 = 500 := rfl
  unfold try_read_word_body
  simp only [hte, decide_True, hsync, hmask, hhalf, hbits, commit_block,
    LOGICDATA_TRACE_HISTORY_MAX]
  simp

/-- The height read from a context: the word the call returns, when it is a number frame. -/
theorem try_read_height_of_word (s s1 : logicdata_ctx) (w : Nat)
    (h : try_read_word_body s 0 = some (true, s1, w)) (hn : logicdata_is_number w = true) :
    logicdata_try_read_height_cm (some s) = some (reverse_byte ((w >>> 1) % 256), some s1) := by
  unfold logicdata_try_read_height_cm logicdata_try_read_word
  simp [h, hn, logicdata_get_number]

/-- C1 (timing round trip): for every payload byte `p` and either value `b0` of bit 0, let
`w = 0x40600400 | (p << 1) | b0`.  Pushing `LOGICDATA_BIG_IDLE`, one interval above 40000 us
and then 1000 us times each run length of `w` into a ring with `head = tail = 0` makes
`logicdata_try_read_word` return `true` with `*out_word = w`, and
`logicdata_try_read_height_cm` on the same buffer return the bit-reversal of `p`. -/
theorem C1_timing_round_trip (s0 : logicdata_ctx) (hh : s0.head = 0) (ht : s0.tail = 0)
    (p b0 big out0 : Nat) (hp : p < 256) (hb : b0 < 2) (hbig : 40000 < big) :
    let w := 0x40600400 ||| (p <<< 1) ||| b0
    let s := ld_push_all s0
      (LOGICDATA_BIG_IDLE :: big :: (run_lengths w).map fun r => 1000 * r)
    logicdata_try_read_word (some s) (some out0) =
      some (true, some { s with tail := (run_lengths w).length }, some w) ∧
    logicdata_try_read_height_cm (some s) =
      some (reverse_byte p, some { s with tail := (run_lengths w).length }) ∧
    reverse_byte p < 256 ∧
    ∀ k, k < 8 → (reverse_byte p).testBit k = p.testBit (7 - k) := by
  intro w s
  have hweq : w = 0x40600400 + 2 * p + b0 := frame_word_eq p b0 hp hb
  have hw : w < 2 ^ 32 := by rw [hweq]; norm_num; omega
  have h31 : w.testBit 31 = false := by
    rw [Nat.testBit_to_div_mod, hweq]
    apply decide_eq_false
    norm_num
    omega
  have h30 : w.testBit 30 = true := by
    rw [Nat.testBit_to_div_mod, hweq]
    apply decide_eq_true
    norm_num
    omega
  have hnum : logicdata_is_number w = true := by
    rw [logicdata_is_number_iff, and_FFF00000, and_000FFE00, hweq]
    norm_num
    omega
  have hpay : (w >>> 1) % 256 = p := by
    rw [Nat.shiftRight_eq_div_pow, hweq]
    omega
  have hK := run_lengths_length w
  have hlen : (LOGICDATA_BIG_IDLE :: big :: (run_lengths w).map fun r => 1000 * r).length ≤ 79 := by
    simp only [List.length_cons, List.length_map]; omega
  have hview : ld_view s = LOGICDATA_BIG_IDLE :: big ::
      (((run_lengths w).map fun r => 1000 * r) ++ []) := by
    rw [List.append_nil]
    exact ld_view_push_all_fresh s0 hh ht _ hlen
  have htail : s.tail = 0 := (ld_push_all_no_wrap _ s0 ht (by rw [hh]; omega)).1
  have hbody : ∀ o, try_read_word_body s o =
      some (true, { s with tail := (run_lengths w).length }, w) := by
    intro o
    have := try_read_word_body_frame s (by rw [htail]) LOGICDATA_BIG_IDLE big w o
      ((run_lengths w).map fun r => 1000 * r) [] hw h31 h30 hview hbig
      (on_grid_exact _ (run_lengths_pos w)) (by rw [List.length_map]; omega)
    rw [this, htail, List.length_map]
    have : (0 + (run_lengths w).length) % 80 = (run_lengths w).length := by omega
    rw [this]
  refine ⟨?_, ?_, reverse_byte_lt p, fun k hk => reverse_byte_testBit p k hk⟩
  · unfold logicdata_try_read_word
    simp [hbody out0]
  · rw [try_read_height_of_word s _ w (hbody 0) hnum, hpay]

theorem C1_witness :
    (logicdata_try_read_height_cm (some (ld_push_all (logicdata_init 0)
      (LOGICDATA_BIG_IDLE :: 50000 ::
        (run_lengths (0x40600400 ||| (0b01011010 <<< 1) ||| 0)).map fun r => 1000 * r)))).map
      Prod.fst = some 0b01011010 := by
  have h := (C1_timing_round_trip (logicdata_init 0) rfl rfl 0b01011010 0 50000 0
    (by decide) (by decide) (by decide)).2.1
  rw [h]
  decide

/-- The two ways a call with non-null arguments returns: the bit loop ran out of
intervals, or all 32 bits were produced and the commit advanced `tail`. -/
theorem try_read_word_body_cases (s s1 : logicdata_ctx) (o o1 : Nat) (ok : Bool)
    (h : try_read_word_body s o = some (ok, s1, o1)) :
    ∃ (i : Nat) (level : Bool) (mask i2 acc : Nat),
      sync_search s 65536 0 (decide (s.tail % 2 = 0)) 0 = some (i, level) ∧
      bit_loop s 33 (1 <<< 31) i level 0 (LOGICDATA_SAMPLE_RATE_US / 2) 0 = some (mask, i2, acc) ∧
      ((mask ≠ 0 ∧ ok = false ∧ s1 = s ∧ o1 = o) ∨
       (mask = 0 ∧ ok = true ∧ o1 = acc ∧
         s1 = if i2 > 0 then { s with tail := (s.tail + (i2 - 1)) % 80 } else s)) := by
  unfold try_read_word_body at h
  dsimp only at h
  cases hs : sync_search s 65536 0 (decide (s.tail % 2 = 0)) 0 with
  | none => rw [hs] at h; simp at h
  | some r =>
    obtain ⟨i, level⟩ := r
    rw [hs] at h
    dsimp only at h
    cases hb : bit_loop s 33 (1 <<< 31) i level 0 (LOGICDATA_SAMPLE_RATE_US / 2) 0 with
    | none => rw [hb] at h; simp at h
    | some r2 =>
      obtain ⟨mask, i2, acc⟩ := r2
      rw [hb] at h
      dsimp only at h
      refine ⟨i, level, mask, i2, acc, rfl, hb, ?_⟩
      by_cases hm : mask = 0
      · right
        simp only [hm, ne_eq, not_true_eq_false, if_false, commit_block, if_true,
          LOGICDATA_TRACE_HISTORY_MAX] at h
        by_cases hi : i2 > 0
        · simp only [hi, if_true] at h ⊢
          simp at h
          exact ⟨hm, h.1, h.2.2.symm, h.2.1.symm⟩
        · simp only [hi, if_false] at h ⊢
          simp at h
          exact ⟨hm, h.1, h.2.2.symm, h.2.1.symm⟩
      · left
        simp only [ne_eq, hm, not_false_eq_true, if_true] at h
        simp at h
        exact ⟨hm, h.1, h.2.1.symm, h.2.2.symm⟩

theorem try_read_word_body_false (s s1 : logicdata_ctx) (o o1 : Nat)
    (h : try_read_word_body s o = some (false, s1, o1)) : s1 = s ∧ o1 = o := by
  obtain ⟨i, level, mask, i2, acc, _, _, hc⟩ := try_read_word_body_cases s s1 o o1 false h
  rcases hc with ⟨_, _, h1, h2⟩ | ⟨_, h1, _, _⟩
  · exact ⟨h1, h2⟩
  · simp at h1

/-- C4 (insufficient data), evaluated on a buffer where it fails: after the start marker at
index 1 the buffered intervals sum to 23100 us, fewer than 31.5 bit-periods, and the last
one is only 100 us long.  The budget `500 + 100` stays below one bit-period, the unsigned
subtraction wraps, and the loop emits the remaining bits without data:
`logicdata_try_read_word` returns `true` with the word `0x406005FF`, `tail` moves from 0 to
8, and `logicdata_try_read_height_cm` returns 255. -/
theorem C4_short_interval_decodes :
    (ld_push_all (logicdata_init 0)
      [4294967295, 50000, 1000, 1000, 7000, 2000, 10000, 1000, 1000, 100]).tail = 0 ∧
    sync_search (ld_push_all (logicdata_init 0)
      [4294967295, 50000, 1000, 1000, 7000, 2000, 10000, 1000, 1000, 100]) 65536 0 true 0
      = some (1, false) ∧
    ((ld_view (ld_push_all (logicdata_init 0)
      [4294967295, 50000, 1000, 1000, 7000, 2000, 10000, 1000, 1000, 100])).drop 2).sum = 23100 ∧
    (logicdata_try_read_word (some (ld_push_all (logicdata_init 0)
      [4294967295, 50000, 1000, 1000, 7000, 2000, 10000, 1000, 1000, 100])) (some 0)).map
      (fun r => (r.1, r.2.1.map (fun c => c.tail), r.2.2)) = some (true, some 8, some 0x406005FF) ∧
    (logicdata_try_read_height_cm (some (ld_push_all (logicdata_init 0)
      [4294967295, 50000, 1000, 1000, 7000, 2000, 10000, 1000, 1000, 100]))).map Prod.fst
      = some 255 := by
  refine ⟨by decide, by decide, by decide, by decide, by decide⟩

/-! ## Too few buffered intervals -/

theorem sync_search_le (s : logicdata_ctx) (hsz : ld_size s < 65536) (n : Nat) :
    ∀ (i : Nat) (level : Bool) (t i1 : Nat) (level1 : Bool), i ≤ ld_size s →
      sync_search s n i level t = some (i1, level1) → i1 ≤ ld_size s := by
  induction n with
  | zero => intro i level t i1 level1 _ h; simp [sync_search] at h
  | succ n ih =>
    intro i level t i1 level1 hi h
    rw [sync_search] at h
    by_cases hlt : i < ld_size s
    · rw [ld_peek_of_lt s i t hlt] at h
      have hmod : (i + 1) % 65536 = i + 1 := Nat.mod_eq_of_lt (by omega)
      rw [hmod] at h
      dsimp only at h
      split at h
      · split at h
        · simp at h; omega
        · exact ih _ _ _ _ _ (by omega) h
      · exact ih _ _ _ _ _ (by omega) h
    · rw [ld_peek_of_ge s i t (by omega)] at h
      simp at h
      omega

/-- When every buffered interval still to be read is at least one bit-period long and
budget plus buffered time do not reach the remaining `n` sampling points, the bit loop
runs out of intervals and stops with a non-zero mask. -/
theorem bit_loop_insufficient (s : logicdata_ctx) (hsz : (ld_view s).length < 65535) (n : Nat) :
    ∀ (i : Nat) (level : Bool) (acc t_meas t : Nat), n ≤ 32 → i ≤ (ld_view s).length →
      (∀ v ∈ (ld_view s).drop (i + 1), 1000 ≤ v) →
      t_meas + ((ld_view s).drop (i + 1)).sum < 1000 * n →
      ∃ mask i2 acc2, bit_loop s (n + 1) (2 ^ n / 2) i level acc t_meas t = some (mask, i2, acc2) ∧
        mask ≠ 0 := by
  induction n with
  | zero => intro i level acc t_meas t _ _ _ h; omega
  | succ n ih =>
    intro i level acc t_meas t hn hi hge hsum
    have hmask : 2 ^ (n + 1) / 2 ≠ 0 := half_pow_ne_zero (n + 1) (by omega)
    have hmod : (i + 1) % 65536 = i + 1 := Nat.mod_eq_of_lt (by omega)
    rw [bit_loop]
    simp only [hmask, if_false, hmod, half_pow_shift, Nat.add_sub_cancel]
    by_cases hlt : t_meas < LOGICDATA_SAMPLE_RATE_US
    · simp only [hlt, if_true]
      by_cases hin : i + 1 < (ld_view s).length
      · have hpeek : ld_peek s (i + 1) t = (true, (ld_view s)[i + 1]) := by
          rw [ld_peek_eq_view, List.getElem?_eq_getElem hin]
        have hdrop : (ld_view s).drop (i + 1) = (ld_view s)[i + 1] :: (ld_view s).drop (i + 1 + 1) :=
          List.drop_eq_getElem_cons hin
        have hv : 1000 ≤ (ld_view s)[i + 1] := hge _ (by rw [hdrop]; exact List.mem_cons_self _ _)
        rw [hdrop, List.sum_cons] at hsum
        rw [hpeek]
        dsimp only
        have hadd : (t_meas + (ld_view s)[i + 1]) % 4294967296 = t_meas + (ld_view s)[i + 1] :=
          Nat.mod_eq_of_lt (by omega)
        have hsub : (t_meas + (ld_view s)[i + 1] + 4294967296 - LOGICDATA_SAMPLE_RATE_US) % 4294967296
            = t_meas + (ld_view s)[i + 1] - 1000 := by
          unfold LOGICDATA_SAMPLE_RATE_US; omega
        rw [hadd, hsub]
        apply ih (i + 1) _ _ _ _ (by omega) (by omega)
        · intro v hv2
          exact hge v (by rw [hdrop]; exact List.mem_cons_of_mem _ hv2)
        · omega
      · have hpeek : ld_peek s (i + 1) t = (false, t) := by
          rw [ld_peek_eq_view, List.getElem?_eq_none (by omega)]
        rw [hpeek]
        exact ⟨_, _, _, rfl, hmask⟩
    · simp only [hlt, if_false]
      have hsub : (t_meas + 4294967296 - LOGICDATA_SAMPLE_RATE_US) % 4294967296 = t_meas - 1000 := by
        unfold LOGICDATA_SAMPLE_RATE_US at hlt ⊢; omega
      rw [hsub]
      apply ih i _ _ _ _ (by omega) hi hge
      unfold LOGICDATA_SAMPLE_RATE_US at hlt
      omega

/-- Insufficient data on a ring whose intervals are all at least one bit-period long: when
the intervals buffered after the index the start-bit search stops at sum to less than
31500 us, the call returns `false`, the height is `0` and the context is unchanged. -/
theorem try_read_word_insufficient (s : logicdata_ctx) (hh : s.head < 80) (ht : s.tail < 80)
    (i : Nat) (level : Bool)
    (hs : sync_search s 65536 0 (decide (s.tail % 2 = 0)) 0 = some (i, level))
    (hge : ∀ v ∈ (ld_view s).drop (i + 1), 1000 ≤ v)
    (hsum : ((ld_view s).drop (i + 1)).sum < 31500) (o : Nat) :
    logicdata_try_read_word (some s) (some o) = some (false, some s, some o) ∧
    logicdata_try_read_height_cm (some s) = some (0, some s) := by
  have hsz := ld_size_le s hh ht
  have hi : i ≤ ld_size s := sync_search_le s (by omega) 65536 0 _ 0 i level (by omega) hs
  have hbody : ∀ o1, try_read_word_body s o1 = some (false, s, o1) := by
    intro o1
    obtain ⟨mask, i2, acc2, hb, hm⟩ := bit_loop_insufficient s (by rw [ld_view_length]; omega) 32
      i level 0 500 0 (by omega) (by rw [ld_view_length]; exact hi) hge (by omega)
    have hpow : (2 : Nat) ^ 32 / 2 = 2147483648 := by norm_num
    rw [hpow] at hb
    have hmask : (1 : Nat) <<< 31 = 2147483648 := by rw [Nat.shiftLeft_eq]
    have hhalf : LOGICDATA_SAMPLE_RATE_US / 2 = 500 := rfl
    unfold try_read_word_body
    simp only [hs, hmask, hhalf, hb]
    simp [hm]
  constructor
  · unfold logicdata_try_read_word
    simp [hbody o]
  · unfold logicdata_try_read_height_cm logicdata_try_read_word
    simp [hbody 0]

/-! ## The index invariant -/

theorem logicdata_gpio_isr_bounds (s : logicdata_ctx) (now : Nat) (level : Bool)
    (hh : s.head < 80) (ht : s.tail < 80) :
    (logicdata_gpio_isr s now level).head < 80 ∧ (logicdata_gpio_isr s now level).tail < 80 := by
  by_cases hl : level = decide (s.head % 2 = 1)
  · rw [gpio_isr_of_match s now level hl]
    constructor
    · show (s.head + 1) % 80 < 80
      omega
    · show (if (s.head + 1) % 80 = s.tail then (s.tail + 1) % 80 else s.tail) < 80
      split <;> omega
  · rw [gpio_isr_of_mismatch s now level hl]
    exact ⟨hh, ht⟩

theorem try_read_word_bounds (s s1 : logicdata_ctx) (o o1 : Option Nat) (ok : Bool)
    (h : logicdata_try_read_word (some s) o = some (ok, some s1, o1))
    (hh : s.head < 80) (ht : s.tail < 80) : s1.head < 80 ∧ s1.tail < 80 := by
  unfold logicdata_try_read_word at h
  cases o with
  | none =>
    simp at h
    rw [← h.2.1]
    exact ⟨hh, ht⟩
  | some w =>
    dsimp only at h
    cases hb : try_read_word_body s w with
    | none => rw [hb] at h; simp at h
    | some r =>
      obtain ⟨ok2, s2, w2⟩ := r
      rw [hb] at h
      simp at h
      obtain ⟨_, hs, _⟩ := h
      subst hs
      obtain ⟨i, level, mask, i2, acc, _, _, hc⟩ := try_read_word_body_cases s s2 w w2 ok2 hb
      rcases hc with ⟨_, _, h1, _⟩ | ⟨_, _, _, h1⟩
      · rw [h1]; exact ⟨hh, ht⟩
      · rw [h1]
        split
        · exact ⟨hh, Nat.mod_lt _ (by decide)⟩
        · exact ⟨hh, ht⟩

theorem reachable_bounds (s : logicdata_ctx) (h : Reachable s) : s.head < 80 ∧ s.tail < 80 := by
  induction h with
  | init now => exact ⟨Nat.zero_lt_succ _, Nat.zero_lt_succ _⟩
  | push s t _ ih => exact ⟨ld_push_isr_head_lt s t, ld_push_isr_tail_lt s t ih.2⟩
  | isr s now level _ ih => exact logicdata_gpio_isr_bounds s now level ih.1 ih.2
  | read s o ok s1 o1 _ hr ih => exact try_read_word_bounds s s1 o o1 ok hr ih.1 ih.2

/-- C10 (index invariant): in every state reachable from the one `logicdata_init` sets up
through `ld_push_isr`, `logicdata_gpio_isr` and `logicdata_try_read_word`, `head < 80` and
`tail < 80`, so `ld_size = (80 + head - tail) % 80` is at most 79, the store of
`ld_push_isr` lands in slot `head` of the 80-slot array, and every slot `ld_peek` (and so the
decoder) reads has an index below 80. -/
theorem C10_index_invariant (s : logicdata_ctx) (h : Reachable s) :
    s.head < 80 ∧ s.tail < 80 ∧
    ld_size s = (80 + s.head - s.tail) % 80 ∧ ld_size s ≤ 79 ∧
    (∀ t : Nat, ∃ hw : s.head < 80, (ld_push_isr s t).trace ⟨s.head, hw⟩ = t) ∧
    (∀ index : Nat, (ld_peek_pos s index).val < 80) := by
  obtain ⟨hh, ht⟩ := reachable_bounds s h
  refine ⟨hh, ht, ld_size_eq s hh ht, ld_size_le s hh ht, ?_, ?_⟩
  · intro t
    refine ⟨hh, ?_⟩
    rw [ld_push_isr_trace s t hh]
    simp
  · intro index
    exact (ld_peek_pos s index).isLt

theorem C10_witness :
    (ld_push_isr (logicdata_init 0) 5).head < 80 ∧ (ld_push_isr (logicdata_init 0) 5).tail < 80 ∧
    ld_size (ld_push_isr (logicdata_init 0) 5) =
      (80 + (ld_push_isr (logicdata_init 0) 5).head - (ld_push_isr (logicdata_init 0) 5).tail) % 80 ∧
    ld_size (ld_push_isr (logicdata_init 0) 5) ≤ 79 ∧
    (∀ t : Nat, ∃ hw : (ld_push_isr (logicdata_init 0) 5).head < 80,
      (ld_push_isr (ld_push_isr (logicdata_init 0) 5) t).trace
        ⟨(ld_push_isr (logicdata_init 0) 5).head, hw⟩ = t) ∧
    (∀ index : Nat, (ld_peek_pos (ld_push_isr (logicdata_init 0) 5) index).val < 80) :=
  C10_index_invariant _ (Reachable.push _ 5 (Reachable.init 0))

/-! ## Presets and the control loop -/

/-- C16 (preset replacement policy): `handle_height_preset_change h` writes exactly one
preset.  With `low_height = 0` it sets `low_height := h`; else with `high_height = 0` it
sets `high_height := h`; else it overwrites the preset whose absolute difference from `h`
is smaller, `low_height` on a tie.  The other preset and every other global keep their
value. -/
theorem C16_preset_replacement (st : app_state) (h : Nat)
    (hl : st.low_height < 256) (hh : st.high_height < 256) (hh8 : h < 256) :
    (st.low_height = 0 →
      handle_height_preset_change st h = { st with low_height := h }) ∧
    (st.low_height ≠ 0 → st.high_height = 0 →
      handle_height_preset_change st h = { st with high_height := h }) ∧
    (st.low_height ≠ 0 → st.high_height ≠ 0 →
      Int.natAbs ((h : Int) - st.low_height) ≤ Int.natAbs ((h : Int) - st.high_height) →
      handle_height_preset_change st h = { st with low_height := h }) ∧
    (st.low_height ≠ 0 → st.high_height ≠ 0 →
      Int.natAbs ((h : Int) - st.high_height) < Int.natAbs ((h : Int) - st.low_height) →
      handle_height_preset_change st h = { st with high_height := h }) := by
  refine ⟨?_, ?_, ?_, ?_⟩
  · intro h0
    simp [handle_height_preset_change, h0]
  · intro h0 h1
    simp [handle_height_preset_change, h0, h1]
  · intro h0 h1 hd
    unfold handle_height_preset_change
    rw [if_neg h0, if_neg h1]
    dsimp only
    have : (if h > st.low_height then (h - st.low_height) % 256 else (st.low_height - h) % 256) ≤
        (if h > st.high_height then (h - st.high_height) % 256 else (st.high_height - h) % 256) := by
      split <;> split <;> omega
    rw [if_pos this]
  · intro h0 h1 hd
    unfold handle_height_preset_change
    rw [if_neg h0, if_neg h1]
    dsimp only
    have : ¬ (if h > st.low_height then (h - st.low_height) % 256 else (st.low_height - h) % 256) ≤
        (if h > st.high_height then (h - st.high_height) % 256 else (st.high_height - h) % 256) := by
      split <;> split <;> omega
    rw [if_neg this]

/-- C17 (control-loop step): one iteration of the main loop with `go_to_height_active` set
deasserts both lines and keeps the request when `height`, `low_height` or `high_height`
is 0; otherwise it asserts UP alone when `height < go_to_height`, DOWN alone when
`height > go_to_height`, and on `height = go_to_height` deasserts both and clears the
request.  It never leaves both lines asserted.  With `go_to_height_active` clear the
iteration makes no `gpio_set_level` call and changes nothing. -/
theorem C17_control_loop_step (st : app_state) :
    (st.go_to_height_active = true →
      (st.height = 0 ∨ st.low_height = 0 ∨ st.high_height = 0 →
        (app_main_loop_step st).pin_up = false ∧ (app_main_loop_step st).pin_down = false ∧
        (app_main_loop_step st).go_to_height_active = true) ∧
      (¬ (st.height = 0 ∨ st.low_height = 0 ∨ st.high_height = 0) →
        (st.height < st.go_to_height →
          (app_main_loop_step st).pin_up = true ∧ (app_main_loop_step st).pin_down = false ∧
          (app_main_loop_step st).go_to_height_active = true) ∧
        (st.height > st.go_to_height →
          (app_main_loop_step st).pin_up = false ∧ (app_main_loop_step st).pin_down = true ∧
          (app_main_loop_step st).go_to_height_active = true) ∧
        (st.height = st.go_to_height →
          (app_main_loop_step st).pin_up = false ∧ (app_main_loop_step st).pin_down = false ∧
          (app_main_loop_step st).go_to_height_active = false)) ∧
      ¬ ((app_main_loop_step st).pin_up = true ∧ (app_main_loop_step st).pin_down = true) ∧
      (app_main_loop_step st).gpio_log.length = st.gpio_log.length + 2) ∧
    (st.go_to_height_active = false →
      app_main_loop_step st = st ∧ (app_main_loop_step st).gpio_log = st.gpio_log) := by
  constructor
  · intro ha
    by_cases hz : st.height = 0 ∨ st.low_height = 0 ∨ st.high_height = 0
    · have hstep : app_main_loop_step st =
          gpio_set_level (gpio_set_level st gpio_pin.PIN_UP false) gpio_pin.PIN_DOWN false := by
        unfold app_main_loop_step
        rw [if_pos ha, if_pos hz]
      rw [hstep]
      simp [hz, gpio_set_level, ha]
    · by_cases hlt : st.height < st.go_to_height
      · have hgt : ¬ st.height > st.go_to_height := by omega
        have hne : st.height ≠ st.go_to_height := by omega
        have hstep : app_main_loop_step st =
            gpio_set_level (gpio_set_level st gpio_pin.PIN_UP true) gpio_pin.PIN_DOWN false := by
          unfold app_main_loop_step
          rw [if_pos ha, if_neg hz, if_pos hlt]
        rw [hstep]
        simp [hz, hlt, hgt, hne, gpio_set_level, ha]
      · by_cases hgt : st.height > st.go_to_height
        · have hne : st.height ≠ st.go_to_height := by omega
          have hstep : app_main_loop_step st =
              gpio_set_level (gpio_set_level st gpio_pin.PIN_DOWN true) gpio_pin.PIN_UP false := by
            unfold app_main_loop_step
            rw [if_pos ha, if_neg hz, if_neg hlt, if_pos hgt]
          rw [hstep]
          simp [hz, hlt, hgt, hne, gpio_set_level, ha]
        · have hstep : app_main_loop_step st =
              { gpio_set_level (gpio_set_level st gpio_pin.PIN_UP false) gpio_pin.PIN_DOWN false with
                go_to_height_active := false } := by
            unfold app_main_loop_step
            rw [if_pos ha, if_neg hz, if_neg hlt, if_neg hgt]
          rw [hstep]
          simp [hz, hlt, hgt, gpio_set_level]
  · intro ha
    unfold app_main_loop_step
    simp [ha]

theorem C16_witness :
    handle_height_preset_change
      { height := 100, low_height := 70, high_height := 110, go_to_height_active := false,
        go_to_height := 0, pin_up := false, pin_down := false, gpio_log := [] } 100 =
    { height := 100, low_height := 70, high_height := 100, go_to_height_active := false,
      go_to_height := 0, pin_up := false, pin_down := false, gpio_log := [] } :=
  (C16_preset_replacement
    { height := 100, low_height := 70, high_height := 110, go_to_height_active := false,
      go_to_height := 0, pin_up := false, pin_down := false, gpio_log := [] } 100
    (by decide) (by decide) (by decide)).2.2.2 (by decide) (by decide) (by decide)

/-! ## Stored samples -/

theorem ld_push_isr_trace_cases (s : logicdata_ctx) (v : Nat) (k : Fin 80) :
    (ld_push_isr s v).trace k = v ∨ (ld_push_isr s v).trace k = s.trace k := by
  by_cases hh : s.head < 80
  · rw [ld_push_isr_trace s v hh]
    split
    · left; rfl
    · right; rfl
  · right
    unfold ld_push_isr
    simp [hh]

/-- A decode call never writes `head` or `trace`. -/
theorem try_read_word_frame (s s1 : logicdata_ctx) (o o1 : Option Nat) (ok : Bool)
    (h : logicdata_try_read_word (some s) o = some (ok, some s1, o1)) :
    s1.head = s.head ∧ s1.trace = s.trace ∧ s1.prev_bit_us = s.prev_bit_us ∧
    s1.pin_idle = s.pin_idle := by
  unfold logicdata_try_read_word at h
  cases o with
  | none =>
    simp at h
    rw [← h.2.1]
    exact ⟨rfl, rfl, rfl, rfl⟩
  | some w =>
    dsimp only at h
    cases hb : try_read_word_body s w with
    | none => rw [hb] at h; simp at h
    | some r =>
      obtain ⟨ok2, s2, w2⟩ := r
      rw [hb] at h
      simp at h
      obtain ⟨_, hs, _⟩ := h
      subst hs
      obtain ⟨i, level, mask, i2, acc, _, _, hc⟩ := try_read_word_body_cases s s2 w w2 ok2 hb
      rcases hc with ⟨_, _, h1, _⟩ | ⟨_, _, _, h1⟩
      · rw [h1]; exact ⟨rfl, rfl, rfl, rfl⟩
      · rw [h1]
        split <;> exact ⟨rfl, rfl, rfl, rfl⟩

theorem gpio_isr_trace_bounded (s : logicdata_ctx) (now : Nat) (level : Bool)
    (h : ∀ k : Fin 80, s.trace k = LOGICDATA_BIG_IDLE ∨ s.trace k < LOGICDATA_IDLE_TIME_US)
    (k : Fin 80) :
    (logicdata_gpio_isr s now level).trace k = LOGICDATA_BIG_IDLE ∨
      (logicdata_gpio_isr s now level).trace k < LOGICDATA_IDLE_TIME_US := by
  by_cases hl : level = decide (s.head % 2 = 1)
  · rw [gpio_isr_of_match s now level hl]
    show (ld_push_isr s _).trace k = _ ∨ (ld_push_isr s _).trace k < _
    rcases ld_push_isr_trace_cases s
      (if s.pin_idle = true ∨ 65536 ≤ (((now : Int) - (s.prev_bit_us : Int)) % 4294967296).toNat
        then LOGICDATA_BIG_IDLE
        else (((now : Int) - (s.prev_bit_us : Int)) % 4294967296).toNat) k with hv | hv
    · rw [hv]
      split
      · left; rfl
      · rename_i hc
        right
        unfold LOGICDATA_IDLE_TIME_US
        omega
    · rw [hv]; exact h k
  · rw [gpio_isr_of_mismatch s now level hl]
    exact h k

/-- C18 (stored samples are bounded): in every state reachable from the one
`logicdata_init` sets up (zero-filled trace) through `logicdata_gpio_isr` steps and
`logicdata_try_read_word` calls, every slot of `trace` holds either the sentinel
`LOGICDATA_BIG_IDLE` or a value strictly below `LOGICDATA_IDLE_TIME_US` = 65536: a real
delta of 65536 us or more is never stored. -/
theorem C18_stored_samples_bounded (s : logicdata_ctx) (h : ReachableIsr s) :
    ∀ k : Fin 80, s.trace k = LOGICDATA_BIG_IDLE ∨ s.trace k < LOGICDATA_IDLE_TIME_US := by
  induction h with
  | init now =>
    intro k
    right
    show (0 : Nat) < 65536
    omega
  | isr s now level _ ih => exact gpio_isr_trace_bounded s now level ih
  | read s o ok s1 o1 _ hr ih =>
    intro k
    rw [(try_read_word_frame s s1 o o1 ok hr).2.1]
    exact ih k

theorem C18_witness :
    (logicdata_gpio_isr (logicdata_gpio_isr (logicdata_init 0) 70000 false) 70500 true).trace
        ⟨0, by decide⟩ = LOGICDATA_BIG_IDLE ∨
      (logicdata_gpio_isr (logicdata_gpio_isr (logicdata_init 0) 70000 false) 70500 true).trace
        ⟨0, by decide⟩ < LOGICDATA_IDLE_TIME_US :=
  C18_stored_samples_bounded _
    (ReachableIsr.isr _ 70500 true (ReachableIsr.isr _ 70000 false (ReachableIsr.init 0)))
    ⟨0, by decide⟩

/-! ## The start-bit search -/

theorem start_marker_lt (s : logicdata_ctx) (m : Nat) (h : start_marker s m = true) :
    m + 1 < ld_size s := by
  unfold start_marker at h
  simp only [Bool.and_eq_true] at h
  have h1 := h.2.2.1
  by_contra hc
  rw [ld_peek_of_ge s (m + 1) 0 (by omega)] at h1
  simp at h1

theorem tracked_level_succ (a : Nat) (level : Bool) (h : level = decide (a % 2 = 0)) :
    (!level) = decide ((a + 1) % 2 = 0) := by
  rw [h]
  cases hd : decide (a % 2 = 0) <;> simp at hd ⊢ <;> omega

/-- At a buffered index that is not a start marker the search moves on. -/
theorem sync_search_step (s : logicdata_ctx) (hsz : ld_size s < 65535) (n i : Nat)
    (level : Bool) (t : Nat) (hlev : level = decide ((s.tail + i) % 2 = 0))
    (hlt : i < ld_size s) (hnot : start_marker s i = false) :
    sync_search s (n + 1) i level t =
      sync_search s n (i + 1) (!level) (s.trace (ld_peek_pos s i)) := by
  have hmod : (i + 1) % 65536 = i + 1 := Nat.mod_eq_of_lt (by omega)
  rw [sync_search, ld_peek_of_lt s i t hlt, hmod]
  dsimp only
  unfold start_marker at hnot
  rw [ld_peek_of_lt s i 0 hlt] at hnot
  split
  · rename_i hc
    cases hp : ld_peek s (i + 1) 0 with
    | mk ok1 t1 =>
      dsimp only
      split
      · rename_i hc2
        exfalso
        simp only [Bool.and_eq_true, decide_eq_true_eq, Bool.not_eq_true'] at hc hc2
        rw [hp] at hnot
        have hpar : (s.tail + i) % 2 = 1 := by
          have := hc.1
          rw [hlev] at this
          simp at this
          omega
        simp [hpar, hc2.1, hc2.2, LOGICDATA_SAMPLE_RATE_US] at hnot
        unfold LOGICDATA_SAMPLE_RATE_US at hc hc2
        omega
      · rfl
  · rfl

/-- At a start marker the search stops, with the tracked level low. -/
theorem sync_search_stop (s : logicdata_ctx) (hsz : ld_size s < 65535) (n m : Nat)
    (level : Bool) (t : Nat) (hlev : level = decide ((s.tail + m) % 2 = 0))
    (hm : start_marker s m = true) :
    sync_search s (n + 1) m level t = some (m, false) := by
  have hmlt := start_marker_lt s m hm
  have hmod : (m + 1) % 65536 = m + 1 := Nat.mod_eq_of_lt (by omega)
  rw [sync_search, ld_peek_of_lt s m t (by omega), hmod]
  dsimp only
  unfold start_marker at hm
  simp only [Bool.and_eq_true, decide_eq_true_eq] at hm
  obtain ⟨hpar, ⟨_, hbig⟩, hok1, hshort⟩ := hm
  rw [ld_peek_of_lt s m 0 (by omega)] at hbig
  have hlf : level = false := by
    rw [hlev]; apply decide_eq_false; omega
  rw [ld_peek_of_lt s (m + 1) 0 (by omega)] at hshort ⊢
  simp [hlf, LOGICDATA_SAMPLE_RATE_US, hbig, hshort]

/-- The search stops at the first start marker at or after its index, with the level low. -/
theorem sync_search_finds (s : logicdata_ctx) (hsz : ld_size s < 65535) (m : Nat)
    (hm : start_marker s m = true) (n : Nat) :
    ∀ (i : Nat) (level : Bool) (t : Nat), level = decide ((s.tail + i) % 2 = 0) → i ≤ m →
      (∀ j, i ≤ j → j < m → start_marker s j = false) → m - i < n →
      sync_search s n i level t = some (m, false) := by
  have hmlt := start_marker_lt s m hm
  induction n with
  | zero => intro i level t _ _ _ h; omega
  | succ n ih =>
    intro i level t hlev hi hno hn
    by_cases him : i = m
    · subst him
      exact sync_search_stop s hsz n i level t hlev hm
    · rw [sync_search_step s hsz n i level t hlev (by omega) (hno i (Nat.le_refl _) (by omega))]
      exact ih (i + 1) (!level) _ (tracked_level_succ _ level hlev) (by omega)
        (fun j hj1 hj2 => hno j (by omega) hj2) (by omega)

/-- Without a start marker at or after its index the search runs to the end of the ring. -/
theorem sync_search_exhausts (s : logicdata_ctx) (hsz : ld_size s < 65535) (n : Nat) :
    ∀ (i : Nat) (level : Bool) (t : Nat), level = decide ((s.tail + i) % 2 = 0) →
      i ≤ ld_size s → (∀ j, i ≤ j → start_marker s j = false) → ld_size s - i < n →
      sync_search s n i level t = some (ld_size s, decide ((s.tail + ld_size s) % 2 = 0)) := by
  induction n with
  | zero => intro i level t _ _ _ h; omega
  | succ n ih =>
    intro i level t hlev hi hno hn
    by_cases hlt : i < ld_size s
    · rw [sync_search_step s hsz n i level t hlev hlt (hno i (Nat.le_refl _))]
      exact ih (i + 1) (!level) _ (tracked_level_succ _ level hlev) (by omega)
        (fun j hj => hno j (by omega)) (by omega)
    · have : i = ld_size s := by omega
      rw [sync_search, ld_peek_of_ge s i t (by omega), this, hlev, this]

/-- The level the search returns is the one tracked for its index: high on `tail + i`
even. -/
theorem sync_search_level (s : logicdata_ctx) (hsz : ld_size s < 65535) (n : Nat) :
    ∀ (i : Nat) (level : Bool) (t i1 : Nat) (level1 : Bool),
      level = decide ((s.tail + i) % 2 = 0) → i ≤ ld_size s →
      sync_search s n i level t = some (i1, level1) →
      level1 = decide ((s.tail + i1) % 2 = 0) ∧ i ≤ i1 ∧ i1 ≤ ld_size s ∧
      (i1 < ld_size s → start_marker s i1 = true) ∧
      (∀ j, i ≤ j → j < i1 → start_marker s j = false) := by
  induction n with
  | zero => intro i level t i1 level1 _ _ h; simp [sync_search] at h
  | succ n ih =>
    intro i level t i1 level1 hlev hi h
    by_cases hlt : i < ld_size s
    · cases hmk : start_marker s i with
      | true =>
        rw [sync_search_stop s hsz n i level t hlev hmk] at h
        simp at h
        obtain ⟨h1, h2⟩ := h
        subst h1
        refine ⟨?_, Nat.le_refl _, hi, fun _ => hmk, fun j hj1 hj2 => by omega⟩
        rw [h2]
        have := start_marker_lt s i hmk
        unfold start_marker at hmk
        simp only [Bool.and_eq_true, decide_eq_true_eq] at hmk
        symm
        apply decide_eq_false
        omega
      | false =>
        rw [sync_search_step s hsz n i level t hlev hlt hmk] at h
        obtain ⟨h1, h2, h3, h4, h5⟩ := ih (i + 1) (!level) _ i1 level1
          (tracked_level_succ _ level hlev) (by omega) h
        refine ⟨h1, by omega, h3, h4, ?_⟩
        intro j hj1 hj2
        by_cases hji : j = i
        · rw [hji]; exact hmk
        · exact h5 j (by omega) hj2
    · have hieq : i = ld_size s := by omega
      rw [sync_search, ld_peek_of_ge s i t (by omega)] at h
      simp at h
      obtain ⟨h1, h2⟩ := h
      subst h1
      refine ⟨by rw [← h2, hlev], Nat.le_refl _, hi, fun hc => by omega, fun j hj1 hj2 => by omega⟩

/-! ## What the bit loop reads -/

theorem bit_loop_view_nil (n mask : Nat) (level : Bool) (acc t_meas : Nat) :
    bit_loop_view (n + 1) mask [] level acc t_meas =
      if mask = 0 then some (mask, 0, acc)
      else if t_meas < LOGICDATA_SAMPLE_RATE_US then some (mask, 1, acc)
      else bit_loop_view n (mask >>> 1) [] level (if !level then acc ||| mask else acc)
        ((t_meas + 4294967296 - LOGICDATA_SAMPLE_RATE_US) % 4294967296) := by
  rw [bit_loop_view]

theorem bit_loop_view_cons (n mask v : Nat) (l1 : List Nat) (level : Bool) (acc t_meas : Nat) :
    bit_loop_view (n + 1) mask (v :: l1) level acc t_meas =
      if mask = 0 then some (mask, 0, acc)
      else if t_meas < LOGICDATA_SAMPLE_RATE_US then
        (bit_loop_view n (mask >>> 1) l1 (!level) (if !(!level) then acc ||| mask else acc)
          (((t_meas + v) % 4294967296 + 4294967296 - LOGICDATA_SAMPLE_RATE_US) %
            4294967296)).map fun r => (r.1, r.2.1 + 1, r.2.2)
      else bit_loop_view n (mask >>> 1) (v :: l1) level (if !level then acc ||| mask else acc)
        ((t_meas + 4294967296 - LOGICDATA_SAMPLE_RATE_US) % 4294967296) := by
  rw [bit_loop_view]

/-- The bit loop only depends on the samples buffered after its scan index. -/
theorem bit_loop_eq_view (s : logicdata_ctx) (n : Nat) :
    ∀ (mask i : Nat) (level : Bool) (acc t_meas t : Nat), i + n < 65536 →
      bit_loop s n mask i level acc t_meas t =
        (bit_loop_view n mask ((ld_view s).drop (i + 1)) level acc t_meas).map
          fun r => (r.1, i + r.2.1, r.2.2) := by
  induction n with
  | zero => intro mask i level acc t_meas t _; simp [bit_loop, bit_loop_view]
  | succ n ih =>
    intro mask i level acc t_meas t hi
    have hmod : (i + 1) % 65536 = i + 1 := Nat.mod_eq_of_lt (by omega)
    rw [bit_loop, hmod, ld_peek_eq_view]
    cases hd : (ld_view s).drop (i + 1) with
    | nil =>
      have hnone : (ld_view s)[i + 1]? = none := by
        have := congrArg (fun l => l[0]?) hd
        simpa [List.getElem?_drop] using this
      rw [hnone, bit_loop_view_nil]
      by_cases hm : mask = 0
      · simp [hm]
      · simp only [hm, if_false]
        by_cases hlt : t_meas < LOGICDATA_SAMPLE_RATE_US
        · simp [hlt]
        · simp only [hlt, if_false]
          rw [ih _ i _ _ _ t (by omega), hd]
    | cons v l1 =>
      have hsome : (ld_view s)[i + 1]? = some v := by
        have := congrArg (fun l => l[0]?) hd
        simpa [List.getElem?_drop] using this
      have hrest : (ld_view s).drop (i + 1 + 1) = l1 := by
        have := congrArg (fun l => l.drop 1) hd
        simpa [List.drop_drop, Nat.add_comm] using this
      rw [hsome, bit_loop_view_cons]
      by_cases hm : mask = 0
      · simp [hm]
      · simp only [hm, if_false]
        by_cases hlt : t_meas < LOGICDATA_SAMPLE_RATE_US
        · simp only [hlt, if_true]
          rw [ih _ (i + 1) _ _ _ v (by omega), hrest, Option.map_map]
          congr 1
          funext r
          simp only [Function.comp]
          congr 2
          omega
        · simp only [hlt, if_false]
          rw [ih _ i _ _ _ t (by omega), hd]

/-- A loop that produces all its bits consumed at most the buffered samples; a loop that
starts below one bit-period advanced the scan index at least once. -/
theorem bit_loop_view_count (n : Nat) :
    ∀ (mask : Nat) (l : List Nat) (level : Bool) (acc t_meas m c a : Nat),
      bit_loop_view n mask l level acc t_meas = some (m, c, a) →
      (m = 0 → c ≤ l.length) ∧ (mask ≠ 0 → t_meas < LOGICDATA_SAMPLE_RATE_US → 1 ≤ c) := by
  induction n with
  | zero => intro mask l level acc t_meas m c a h; simp [bit_loop_view] at h
  | succ n ih =>
    intro mask l level acc t_meas m c a h
    cases l with
    | nil =>
      rw [bit_loop_view_nil] at h
      by_cases hm : mask = 0
      · simp [hm] at h
        exact ⟨fun _ => by omega, fun hc => absurd hm hc⟩
      · simp only [hm, if_false] at h
        by_cases hlt : t_meas < LOGICDATA_SAMPLE_RATE_US
        · simp [hlt] at h
          exact ⟨fun hm0 => absurd (h.1 ▸ hm0) hm, fun _ _ => by omega⟩
        · simp only [hlt, if_false] at h
          exact ⟨(ih _ _ _ _ _ m c a h).1, fun _ hc => absurd hc hlt⟩
    | cons v l1 =>
      rw [bit_loop_view_cons] at h
      by_cases hm : mask = 0
      · simp [hm] at h
        exact ⟨fun _ => by omega, fun hc => absurd hm hc⟩
      · simp only [hm, if_false] at h
        by_cases hlt : t_meas < LOGICDATA_SAMPLE_RATE_US
        · simp only [hlt, if_true] at h
          cases hr : bit_loop_view n (mask >>> 1) l1 (!level)
              (if (!(!level)) = true then acc ||| mask else acc)
              (((t_meas + v) % 4294967296 + 4294967296 - LOGICDATA_SAMPLE_RATE_US) %
                4294967296) with
          | none => rw [hr] at h; simp at h
          | some r =>
            obtain ⟨m1, c1, a1⟩ := r
            rw [hr] at h
            simp at h
            obtain ⟨h1, h2, h3⟩ := h
            have := (ih _ _ _ _ _ m1 c1 a1 hr).1
            simp only [List.length_cons]
            exact ⟨fun hm0 => by have := this (by omega); omega, fun _ _ => by omega⟩
        · simp only [hlt, if_false] at h
          exact ⟨(ih _ _ _ _ _ m c a h).1, fun _ hc => absurd hc hlt⟩

/-! ## The call in terms of the readable contents -/

theorem mask_start : (1 : Nat) <<< 31 = 2147483648 := by rw [Nat.shiftLeft_eq]

/-- The call with non-null arguments, once the start-bit search has stopped at `i0`: the
bit loop runs on the samples after `i0`, and a complete word moves `tail` to one before
the last consumed interval. -/
theorem try_read_word_body_view (s : logicdata_ctx) (o i0 : Nat) (lvl : Bool)
    (hs : sync_search s 65536 0 (decide (s.tail % 2 = 0)) 0 = some (i0, lvl))
    (hi0 : i0 < 65000) :
    try_read_word_body s o =
      match bit_loop_view 33 2147483648 ((ld_view s).drop (i0 + 1)) lvl 0 500 with
      | none => none
      | some (m, c, a) =>
        if m ≠ 0 then some (false, s, o)
        else some (true, { s with tail := (s.tail + (i0 + c - 1)) % 80 }, a) := by
  have hhalf : LOGICDATA_SAMPLE_RATE_US / 2 = 500 := rfl
  unfold try_read_word_body
  simp only [hs, mask_start, hhalf]
  rw [bit_loop_eq_view s 33 _ i0 lvl 0 500 0 (by omega)]
  cases hb : bit_loop_view 33 2147483648 ((ld_view s).drop (i0 + 1)) lvl 0 500 with
  | none => simp
  | some r =>
    obtain ⟨m, c, a⟩ := r
    simp only [Option.map_some']
    by_cases hm : m = 0
    · have hc := (bit_loop_view_count 33 _ _ _ _ _ m c a hb).2 (by decide)
        (by unfold LOGICDATA_SAMPLE_RATE_US; omega)
      have hpos : i0 + c > 0 := by omega
      simp [hm, commit_block, hpos, LOGICDATA_TRACE_HISTORY_MAX]
    · simp [hm]

theorem try_read_word_some (s : logicdata_ctx) (o : Nat) :
    logicdata_try_read_word (some s) (some o) =
      (try_read_word_body s o).map fun r => (r.1, some r.2.1, some r.2.2) := by
  unfold logicdata_try_read_word
  cases h : try_read_word_body s o with
  | none => simp [h]
  | some r => obtain ⟨a, b, c⟩ := r; simp [h]

theorem sync_search_start (s : logicdata_ctx) (hh : s.head < 80) (ht : s.tail < 80) :
    ∃ i0 lvl, sync_search s 65536 0 (decide (s.tail % 2 = 0)) 0 = some (i0, lvl) ∧
      lvl = decide ((s.tail + i0) % 2 = 0) ∧ i0 ≤ ld_size s ∧
      (i0 < ld_size s → start_marker s i0 = true) ∧
      (∀ j, j < i0 → start_marker s j = false) := by
  have hsz := ld_size_le s hh ht
  obtain ⟨r, hr⟩ := sync_search_total s (by omega) 65536 0 (decide (s.tail % 2 = 0)) 0
    (by omega) (by omega)
  obtain ⟨i0, lvl⟩ := r
  obtain ⟨h1, _, h3, h4, h5⟩ := sync_search_level s (by omega) 65536 0 _ 0 i0 lvl
    (by simp) (by omega) hr
  exact ⟨i0, lvl, hr, h1, h3, h4, fun j hj => h5 j (by omega) hj⟩

/-- C14 (synchronization search): on a ring with `head < 80` and `tail < 80`, when `m` is
the smallest start marker the start-bit search stops at `m` with the level low, bit
reconstruction starts there, and the outcome (flag and word) is the same for every ring
that holds the same samples after its own smallest start marker: no interval before the
marker contributes.  When the ring has no start marker, in particular when it is empty,
the call returns `false`. -/
theorem C14_synchronization_search (s : logicdata_ctx) (hh : s.head < 80) (ht : s.tail < 80)
    (o : Nat) :
    (∀ m, start_marker s m = true → (∀ j, j < m → start_marker s j = false) →
      sync_search s 65536 0 (decide (s.tail % 2 = 0)) 0 = some (m, false) ∧
      (∃ mask i acc,
        bit_loop s 33 (1 <<< 31) m false 0 (LOGICDATA_SAMPLE_RATE_US / 2) 0 = some (mask, i, acc) ∧
        m < i ∧
        logicdata_try_read_word (some s) (some o) =
          if mask ≠ 0 then some (false, some s, some o)
          else some (true, some { s with tail := (s.tail + (i - 1)) % 80 }, some acc)) ∧
      (∀ (s2 : logicdata_ctx) (m2 : Nat), s2.head < 80 → s2.tail < 80 →
        start_marker s2 m2 = true → (∀ j, j < m2 → start_marker s2 j = false) →
        (ld_view s2).drop (m2 + 1) = (ld_view s).drop (m + 1) →
        (logicdata_try_read_word (some s2) (some o)).map (fun r => (r.1, r.2.2)) =
          (logicdata_try_read_word (some s) (some o)).map (fun r => (r.1, r.2.2)))) ∧
    ((∀ j, start_marker s j = false) →
      logicdata_try_read_word (some s) (some o) = some (false, some s, some o)) ∧
    (ld_size s = 0 → ∀ j, start_marker s j = false) := by
  have hsz := ld_size_le s hh ht
  have hfind : ∀ (s3 : logicdata_ctx) (m3 : Nat), s3.head < 80 → s3.tail < 80 →
      start_marker s3 m3 = true → (∀ j, j < m3 → start_marker s3 j = false) →
      sync_search s3 65536 0 (decide (s3.tail % 2 = 0)) 0 = some (m3, false) ∧ m3 < 79 := by
    intro s3 m3 hh3 ht3 hm3 hno3
    have hsz3 := ld_size_le s3 hh3 ht3
    have := start_marker_lt s3 m3 hm3
    exact ⟨sync_search_finds s3 (by omega) m3 hm3 65536 0 _ 0 (by simp) (by omega)
      (fun j _ hj => hno3 j hj) (by omega), by omega⟩
  refine ⟨?_, ?_, ?_⟩
  · intro m hm hno
    obtain ⟨hsync, hm79⟩ := hfind s m hh ht hm hno
    have hbody := try_read_word_body_view s o m false hsync (by omega)
    refine ⟨hsync, ?_, ?_⟩
    · have hhalf : LOGICDATA_SAMPLE_RATE_US / 2 = 500 := rfl
      rw [mask_start, hhalf, bit_loop_eq_view s 33 _ m false 0 500 0 (by omega),
        try_read_word_some, hbody]
      obtain ⟨r, hr⟩ := bit_loop_total s 32 2147483648 m false 0 500 0 (by norm_num)
      rw [bit_loop_eq_view s 33 _ m false 0 500 0 (by omega)] at hr
      cases hb : bit_loop_view 33 2147483648 ((ld_view s).drop (m + 1)) false 0 500 with
      | none => rw [hb] at hr; simp at hr
      | some r2 =>
        obtain ⟨mk, c, a⟩ := r2
        refine ⟨mk, m + c, a, rfl, ?_, ?_⟩
        · have := (bit_loop_view_count 33 _ _ _ _ _ mk c a hb).2 (by decide)
            (by unfold LOGICDATA_SAMPLE_RATE_US; omega)
          omega
        · by_cases hmk : mk = 0 <;> simp [hmk]
    · intro s2 m2 hh2 ht2 hm2 hno2 hdrop
      obtain ⟨hsync2, hm79b⟩ := hfind s2 m2 hh2 ht2 hm2 hno2
      have hbody2 := try_read_word_body_view s2 o m2 false hsync2 (by omega)
      rw [try_read_word_some, try_read_word_some, hbody, hbody2, hdrop]
      cases bit_loop_view 33 2147483648 ((ld_view s).drop (m + 1)) false 0 500 with
      | none => rfl
      | some r =>
        obtain ⟨mk, c, a⟩ := r
        by_cases hmk : mk = 0 <;> simp [hmk]
  · intro hno
    have hsync := sync_search_exhausts s (by omega) 65536 0 (decide (s.tail % 2 = 0)) 0
      (by simp) (by omega) (fun j _ => hno j) (by omega)
    have hbody := try_read_word_body_view s o (ld_size s) _ hsync (by omega)
    have hnil : (ld_view s).drop (ld_size s + 1) = [] := by
      apply List.drop_eq_nil_of_le
      rw [ld_view_length]; omega
    rw [try_read_word_some, hbody, hnil]
    simp [bit_loop_view, LOGICDATA_SAMPLE_RATE_US]
  · intro h0 j
    unfold start_marker
    rw [ld_peek_of_ge s j 0 (by omega)]
    simp

/-- The shape of a successful call: where the loops stopped and what the commit did. -/
theorem try_read_word_true_shape (s s1 : logicdata_ctx) (hh : s.head < 80)
    (ht : s.tail < 80) (o w : Nat)
    (h : logicdata_try_read_word (some s) (some o) = some (true, some s1, some w)) :
    ∃ (i0 : Nat) (lvl : Bool) (i : Nat),
      sync_search s 65536 0 (decide (s.tail % 2 = 0)) 0 = some (i0, lvl) ∧
      bit_loop s 33 (1 <<< 31) i0 lvl 0 (LOGICDATA_SAMPLE_RATE_US / 2) 0 = some (0, i, w) ∧
      1 ≤ i ∧ i < ld_size s ∧
      s1.tail = (s.tail + i - 1) % 80 ∧ s1.head = s.head ∧ s1.trace = s.trace ∧
      ld_size s1 = ld_size s - (i - 1) ∧ 2 ≤ ld_size s1 ∧
      (∀ j out, ld_peek s1 j out = ld_peek s (j + i - 1) out) ∧
      ld_view s1 = (ld_view s).drop (i - 1) := by
  have hsz := ld_size_le s hh ht
  obtain ⟨i0, lvl, hsync, _, hi0, _, _⟩ := sync_search_start s hh ht
  have hbody := try_read_word_body_view s o i0 lvl hsync (by omega)
  have hhalf : LOGICDATA_SAMPLE_RATE_US / 2 = 500 := rfl
  rw [try_read_word_some, hbody] at h
  cases hb : bit_loop_view 33 2147483648 ((ld_view s).drop (i0 + 1)) lvl 0 500 with
  | none => rw [hb] at h; simp at h
  | some r =>
    obtain ⟨m, c, a⟩ := r
    rw [hb] at h
    by_cases hm : m = 0
    · simp [hm] at h
      obtain ⟨hs1, ha⟩ := h
      have hcnt := bit_loop_view_count 33 _ _ _ _ _ m c a hb
      have hc1 := hcnt.2 (by decide) (by unfold LOGICDATA_SAMPLE_RATE_US; omega)
      have hc2 := hcnt.1 hm
      simp only [List.length_drop, ld_view_length] at hc2
      have hloop : bit_loop s 33 (1 <<< 31) i0 lvl 0 (LOGICDATA_SAMPLE_RATE_US / 2) 0 =
          some (0, i0 + c, w) := by
        rw [mask_start, hhalf, bit_loop_eq_view s 33 _ i0 lvl 0 500 0 (by omega), hb, hm, ha]
        rfl
      have hsize := ld_size_eq s hh ht
      have ht1 : s1.tail = (s.tail + (i0 + c) - 1) % 80 := by
        rw [← hs1]
        show (s.tail + (i0 + c - 1)) % 80 = _
        congr 1
        omega
      have hh1 : s1.head = s.head := by rw [← hs1]
      have htr1 : s1.trace = s.trace := by rw [← hs1]
      have hsize1 : ld_size s1 = ld_size s - (i0 + c - 1) := by
        rw [ld_size_eq s1 (by omega) (by rw [ht1]; omega), ht1, hh1, hsize]
        omega
      have hpeek : ∀ j out, ld_peek s1 j out = ld_peek s (j + (i0 + c) - 1) out := by
        intro j out
        unfold ld_peek
        dsimp only
        rw [hsize1]
        by_cases hj : j < ld_size s - (i0 + c - 1)
        · have hj2 : j + (i0 + c) - 1 < ld_size s := by omega
          rw [if_pos hj, if_pos hj2, htr1]
          congr 2
          apply Fin.ext
          simp only [ld_peek_pos_val, ht1]
          omega
        · have hj2 : ¬ j + (i0 + c) - 1 < ld_size s := by omega
          rw [if_neg hj, if_neg hj2]
      refine ⟨i0, lvl, i0 + c, hsync, hloop, by omega, by omega, ht1, hh1, htr1, hsize1,
        by omega, hpeek, ?_⟩
      apply List.ext_getElem?
      intro j
      have h1 := ld_peek_eq_view s1 j 0
      have h2 := ld_peek_eq_view s (j + (i0 + c) - 1) 0
      rw [hpeek j 0] at h1
      rw [List.getElem?_drop]
      have hidx : i0 + c - 1 + j = j + (i0 + c) - 1 := by omega
      rw [hidx]
      rw [h1] at h2
      cases hx : (ld_view s1)[j]? <;> cases hy : (ld_view s)[j + (i0 + c) - 1]? <;>
        simp [hx, hy] at h2 ⊢
      exact h2
    · simp [hm] at h

/-- C15 (a successful commit consumes a FIFO prefix): on a ring with `head < 80` and
`tail < 80`, whenever `logicdata_try_read_word` returns `true`, the scan index `i` the bit
loop ended on (the view index of the last interval it consumed) satisfies
`1 <= i < old size`; the new `tail` is `(old tail + i - 1) mod 80` while `head` and `trace`
are unchanged; the new size is `old size - (i - 1) >= 2`; and `ld_peek j` after the call
is `ld_peek (j + i - 1)` before it, i.e. the readable contents lost their first `i - 1`
samples and nothing else. -/
theorem C15_commit_consumes_prefix (s s1 : logicdata_ctx) (hh : s.head < 80)
    (ht : s.tail < 80) (o w : Nat)
    (h : logicdata_try_read_word (some s) (some o) = some (true, some s1, some w)) :
    ∃ (i0 : Nat) (lvl : Bool) (i : Nat),
      sync_search s 65536 0 (decide (s.tail % 2 = 0)) 0 = some (i0, lvl) ∧
      bit_loop s 33 (1 <<< 31) i0 lvl 0 (LOGICDATA_SAMPLE_RATE_US / 2) 0 = some (0, i, w) ∧
      1 ≤ i ∧ i < ld_size s ∧
      s1.tail = (s.tail + i - 1) % 80 ∧ s1.head = s.head ∧ s1.trace = s.trace ∧
      ld_size s1 = ld_size s - (i - 1) ∧ 2 ≤ ld_size s1 ∧
      (∀ j out, ld_peek s1 j out = ld_peek s (j + i - 1) out) ∧
      ld_view s1 = (ld_view s).drop (i - 1) :=
  try_read_word_true_shape s s1 hh ht o w h

theorem C14_witness :
    sync_search (ld_push_all (logicdata_init 0) [5, 50000, 1000]) 65536 0
      (decide ((ld_push_all (logicdata_init 0) [5, 50000, 1000]).tail % 2 = 0)) 0
      = some (1, false) :=
  ((C14_synchronization_search (ld_push_all (logicdata_init 0) [5, 50000, 1000])
    (by decide) (by decide) 0).1 1 (by decide) (by decide)).1

theorem C15_witness :
    ∃ (i0 : Nat) (lvl : Bool) (i : Nat),
      sync_search (ld_push_all (logicdata_init 0)
        [4294967295, 50000, 1000, 1000, 7000, 2000, 10000, 1000, 10000]) 65536 0
        (decide ((ld_push_all (logicdata_init 0)
          [4294967295, 50000, 1000, 1000, 7000, 2000, 10000, 1000, 10000]).tail % 2 = 0)) 0
        = some (i0, lvl) ∧
      bit_loop (ld_push_all (logicdata_init 0)
        [4294967295, 50000, 1000, 1000, 7000, 2000, 10000, 1000, 10000]) 33 (1 <<< 31) i0 lvl 0
        (LOGICDATA_SAMPLE_RATE_US / 2) 0 = some (0, i, 0x40600400) ∧
      1 ≤ i ∧
      i < ld_size (ld_push_all (logicdata_init 0)
        [4294967295, 50000, 1000, 1000, 7000, 2000, 10000, 1000, 10000]) := by
  obtain ⟨i0, lvl, i, h1, h2, h3, h4, _⟩ := C15_commit_consumes_prefix
    (ld_push_all (logicdata_init 0)
      [4294967295, 50000, 1000, 1000, 7000, 2000, 10000, 1000, 10000])
    { ld_push_all (logicdata_init 0)
        [4294967295, 50000, 1000, 1000, 7000, 2000, 10000, 1000, 10000] with tail := 7 }
    (by decide) (by decide) 0 0x40600400 rfl
  exact ⟨i0, lvl, i, h1, h2, h3, h4⟩

/-! ## Jitter -/

theorem jitter_intervals_length (rs : List Nat) :
    ∀ (n0 : Nat) (e0 : Int) (es : List Int), es.length = rs.length →
      (jitter_intervals n0 e0 rs es).length = rs.length := by
  induction rs with
  | nil => intro n0 e0 es _; cases es <;> simp [jitter_intervals]
  | cons r rs ih =>
    intro n0 e0 es hlen
    cases es with
    | nil => simp at hlen
    | cons e es =>
      simp only [jitter_intervals, List.length_cons]
      rw [ih (n0 + r) e es (by simpa using hlen)]

/-- Edges less than half a bit-period off their boundaries keep the intervals on the
sampling grid. -/
theorem on_grid_jitter (rs : List Nat) :
    ∀ (n0 : Nat) (e0 : Int) (es : List Int), es.length = rs.length →
      -500 < e0 → e0 < 500 → (∀ e ∈ es, -500 < e ∧ e < 500) → (∀ r ∈ rs, 1 ≤ r) →
      on_grid (500 + e0).toNat rs (jitter_intervals n0 e0 rs es) := by
  induction rs with
  | nil => intro n0 e0 es hlen _ _ _ _; cases es <;> simp [jitter_intervals, on_grid]
  | cons r rs ih =>
    intro n0 e0 es hlen h1 h2 hes hrs
    cases es with
    | nil => simp at hlen
    | cons e es =>
      have he := hes e (List.mem_cons_self _ _)
      have hr := hrs r (List.mem_cons_self _ _)
      have hrec := ih (n0 + r) e es (by simpa using hlen) he.1 he.2
        (fun e1 h => hes e1 (List.mem_cons_of_mem _ h))
        (fun r1 h => hrs r1 (List.mem_cons_of_mem _ h))
      simp only [jitter_intervals, on_grid]
      have hd : (500 + e0).toNat +
          ((1000 * ((n0 + r : Nat) : Int) + e) - (1000 * (n0 : Int) + e0)).toNat - 1000 * r
          = (500 + e).toNat := by
        push_cast
        omega
      rw [hd]
      refine ⟨hr, ?_, ?_, hrec⟩
      · push_cast; omega
      · omega

/-- A frame buffered at view index `j`: a long low period at `j`, which is the smallest
start marker, followed by intervals on the sampling grid of the run lengths of `w`. -/
theorem try_read_word_body_frame_at (s : logicdata_ctx) (hh : s.head < 80) (ht : s.tail < 80)
    (j big w o : Nat) (pre tvs rest : List Nat) (hw : w < 2 ^ 32)
    (h31 : w.testBit 31 = false) (h30 : w.testBit 30 = true)
    (hv : ld_view s = pre ++ big :: (tvs ++ rest)) (hj : pre.length = j)
    (hodd : (s.tail + j) % 2 = 1) (hbig : 40000 < big)
    (hfirst : ∀ k, k < j → start_marker s k = false)
    (hg : on_grid 500 (run_lengths w) tvs) :
    try_read_word_body s o =
      some (true, { s with tail := (s.tail + (j + tvs.length - 1)) % 80 }, w) := by
  have hsz := ld_size_le s hh ht
  have hhead := run_lengths_head w h31 h30
  obtain ⟨t1, tvs1, rfl⟩ : ∃ t1 tvs1, tvs = t1 :: tvs1 := by
    cases tvs with
    | nil => rw [hhead] at hg; simp [on_grid] at hg
    | cons t1 tvs1 => exact ⟨t1, tvs1, rfl⟩
  have ht1 : t1 < 2000 := by
    rw [hhead] at hg
    simp only [on_grid] at hg
    omega
  have hlenv : (ld_view s).length = j + 1 + (tvs1.length + 1 + rest.length) := by
    rw [hv]; simp [hj]; omega
  rw [ld_view_length] at hlenv
  have hvj : (ld_view s)[j]? = some big := by
    rw [hv, List.getElem?_append_right (by omega), hj]
    simp
  have hvj1 : (ld_view s)[j + 1]? = some t1 := by
    rw [hv, List.getElem?_append_right (by omega), hj]
    simp
  have hmark : start_marker s j = true := by
    unfold start_marker
    rw [ld_peek_eq_view, ld_peek_eq_view, hvj, hvj1]
    simp [hodd, hbig, ht1]
  have hsync := sync_search_finds s (by omega) j hmark 65536 0 (decide (s.tail % 2 = 0)) 0
    (by simp) (by omega) (fun k _ hk => hfirst k hk) (by omega)
  have hdrop : (ld_view s).drop (j + 1) = (t1 :: tvs1) ++ rest := by
    rw [hv, ← hj, List.drop_append]
    rfl
  have hbits := bit_loop_on_grid s (run_lengths w) (t1 :: tvs1) 32 j false 0 500 0 rest hg
    (run_lengths_sum w) (by omega) (by omega) (by simp only [List.length_cons]; omega) hdrop
  have hexp : expand_runs false (run_lengths w) = bits_msb 32 w := by
    rw [← h31]; exact run_lengths_expand w
  rw [run_lengths_sum, hexp, acc_bits_word w hw] at hbits
  have hpow : (2 : Nat) ^ 32 / 2 = 2147483648 := by norm_num
  rw [hpow] at hbits
  have hhalf : LOGICDATA_SAMPLE_RATE_US / 2 = 500 := rfl
  unfold try_read_word_body
  simp only [hsync, mask_start, hhalf, hbits, commit_block, LOGICDATA_TRACE_HISTORY_MAX]
  simp

/-- C13 as stated fails when an earlier start marker precedes the frame: the ring holds
`5, 50000, 1500` and then, at the odd-parity view index 3, an interval of 50000 us followed
by the exact intervals of `w = 0x40600400`.  The search stops at index 1 (50000 followed by
1500), and the call returns `true` with the word `0x3FFFFFFF` instead of `w`. -/
theorem C13_earlier_marker_counterexample :
    ld_view (ld_push_all (logicdata_init 0)
      [5, 50000, 1500, 50000, 1000, 1000, 7000, 2000, 10000, 1000, 10000]) =
      [5, 50000, 1500] ++ 50000 ::
        (jitter_intervals 0 0 (run_lengths 0x40600400) [0, 0, 0, 0, 0, 0, 0] ++ []) ∧
    ((ld_push_all (logicdata_init 0)
      [5, 50000, 1500, 50000, 1000, 1000, 7000, 2000, 10000, 1000, 10000]).tail + 3) % 2 = 1 ∧
    (0x40600400 : Nat).testBit 31 = false ∧ (0x40600400 : Nat).testBit 30 = true ∧
    (logicdata_try_read_word (some (ld_push_all (logicdata_init 0)
      [5, 50000, 1500, 50000, 1000, 1000, 7000, 2000, 10000, 1000, 10000])) (some 0)).map
      (fun r => (r.1, r.2.2)) = some (true, some 0x3FFFFFFF) ∧
    (0x3FFFFFFF : Nat) ≠ 0x40600400 := by
  refine ⟨by decide, by decide, by decide, by decide, by decide, by decide⟩

/-- C13 (jitter tolerance), amended: let `w` be a 32-bit word with bit 31 clear and bit 30
set, and let every edge error `e_k` satisfy `|e_k| < 500`.  If the readable contents hold,
at a view index `j` with `tail + j` odd, an interval above 40000 us followed by the
intervals `(1000 * n_k + e_k) - (1000 * n_(k-1) + e_(k-1))` of the run boundaries of `w`,
and no start marker lies before `j`, then `logicdata_try_read_word` returns `true` with
`*out_word = w`. -/
theorem C13_jitter_tolerance (s : logicdata_ctx) (hh : s.head < 80) (ht : s.tail < 80)
    (w : Nat) (hw : w < 2 ^ 32) (h31 : w.testBit 31 = false) (h30 : w.testBit 30 = true)
    (es : List Int) (hlen : es.length = (run_lengths w).length)
    (hes : ∀ e ∈ es, -500 < e ∧ e < 500)
    (j big o : Nat) (pre rest : List Nat)
    (hv : ld_view s = pre ++ big :: (jitter_intervals 0 0 (run_lengths w) es ++ rest))
    (hj : pre.length = j) (hodd : (s.tail + j) % 2 = 1) (hbig : 40000 < big)
    (hfirst : ∀ k, k < j → start_marker s k = false) :
    logicdata_try_read_word (some s) (some o) =
      some (true, some { s with tail := (s.tail + (j + (run_lengths w).length - 1)) % 80 },
        some w) := by
  have hg := on_grid_jitter (run_lengths w) 0 0 es hlen (by omega) (by omega) hes
    (run_lengths_pos w)
  have h500 : ((500 : Int) + 0).toNat = 500 := by decide
  rw [h500] at hg
  have hbody := try_read_word_body_frame_at s hh ht j big w o pre _ rest hw h31 h30 hv hj hodd
    hbig hfirst hg
  rw [try_read_word_some, hbody, jitter_intervals_length _ 0 0 es hlen]
  rfl

theorem C13_witness :
    (logicdata_try_read_word (some (ld_push_all (logicdata_init 0)
      [5, 7, 9, 50000, 1100, 700, 7500, 1201, 10998, 501, 9950, 3])) (some 0)).map
      (fun r => (r.1, r.2.2)) = some (true, some 0x40600400) := by
  rw [C13_jitter_tolerance (ld_push_all (logicdata_init 0)
      [5, 7, 9, 50000, 1100, 700, 7500, 1201, 10998, 501, 9950, 3]) (by decide) (by decide)
    0x40600400 (by decide) (by decide) (by decide) [100, -200, 300, -499, 499, 0, -50]
    (by decide) (by decide) 3 50000 0 [5, 7, 9] [3] (by decide) (by decide) (by decide)
    (by decide) (by decide)]
  rfl

/-! ## The bit loop against the reference algorithm -/

/-- C12 (bit reconstruction follows the documented resampling), evaluated on a buffer where
it fails: after the start marker the ring holds seven well-formed intervals and then one
of 100 us.  The reference algorithm, whose per-bit consumption is a while-loop, keeps
consuming at bit 8, finds no further interval and reports failure with `tail` unchanged.
The code consumes one interval per bit: it samples bit 8 with a budget of 600 us, the
subtraction of the bit-period wraps, and the call returns `true` with the word
`0x406005FF` and `tail` advanced to 8.  On a complete frame the two agree. -/
theorem C12_if_not_while_diverges :
    (try_read_word_body (ld_push_all (logicdata_init 0)
      [4294967295, 50000, 1000, 1000, 7000, 2000, 10000, 1000, 1000, 100]) 0).map
      (fun r => (r.1, r.2.1.tail, r.2.2)) = some (true, 8, 0x406005FF) ∧
    (spec_try_read_word (ld_push_all (logicdata_init 0)
      [4294967295, 50000, 1000, 1000, 7000, 2000, 10000, 1000, 1000, 100]) 0).map
      (fun r => (r.1, r.2.1.tail, r.2.2)) = some (false, 0, 0) ∧
    (try_read_word_body (ld_push_all (logicdata_init 0)
      [4294967295, 50000, 1000, 1000, 7000, 2000, 10000, 1000, 10000]) 0).map
      (fun r => (r.1, r.2.1.tail, r.2.2)) = some (true, 7, 0x40600400) ∧
    (spec_try_read_word (ld_push_all (logicdata_init 0)
      [4294967295, 50000, 1000, 1000, 7000, 2000, 10000, 1000, 10000]) 0).map
      (fun r => (r.1, r.2.1.tail, r.2.2)) = some (true, 7, 0x40600400) := by
  refine ⟨by decide, by decide, by decide, by decide⟩

/-! ## The commit under a race -/

theorem ld_push_all_head (vs : List Nat) :
    ∀ s : logicdata_ctx, (ld_push_all s vs).head = (s.head + vs.length) % 80 ∨
      (vs = [] ∧ (ld_push_all s vs).head = s.head) := by
  induction vs with
  | nil => intro s; right; exact ⟨rfl, rfl⟩
  | cons v vs ih =>
    intro s
    left
    rw [ld_push_all_cons]
    rcases ih (ld_push_isr s v) with h | ⟨h1, h2⟩
    · rw [h, ld_push_isr_head, List.length_cons]; omega
    · rw [h2, ld_push_isr_head, h1]; simp

/-- The number of samples the pushes `vs` evict is `size + |vs| - min (size + |vs|) 79`;
`tail` advances by that number, modulo 80. -/
theorem ld_push_all_tail (s : logicdata_ctx) (hh : s.head < 80) (ht : s.tail < 80)
    (vs : List Nat) :
    (ld_push_all s vs).tail =
      (s.tail + (ld_size s + vs.length - min (ld_size s + vs.length) 79)) % 80 := by
  obtain ⟨hh1, ht1⟩ := ld_push_all_bounds vs s hh ht
  have hsz := ld_size_eq s hh ht
  have hsz1 := ld_size_eq (ld_push_all s vs) hh1 ht1
  have hlen : ld_size (ld_push_all s vs) = min (ld_size s + vs.length) 79 := by
    rw [← ld_view_length, ld_view_push_all vs s hh ht]
    simp only [List.length_drop, List.length_append, ld_view_length]
    omega
  have hle := ld_size_le s hh ht
  rcases ld_push_all_head vs s with h | ⟨h1, h2⟩
  · rw [hlen, h] at hsz1
    omega
  · subst h1
    rw [ld_push_all_nil]
    simp only [List.length_nil]
    omega

theorem try_read_word_commit_of_ne (ctx1 : logicdata_ctx) (fini mask i acc o : Nat)
    (h : fini ≠ ctx1.tail) : try_read_word_commit ctx1 fini mask i acc o = (false, ctx1, o) := by
  unfold try_read_word_commit commit_block
  by_cases hm : mask = 0
  · simp [hm, h]
  · simp [hm]

theorem try_read_word_racing_scan (s : logicdata_ctx) (hh : s.head < 80) (ht : s.tail < 80)
    (o : Nat) (isr : List Nat) :
    ∃ mask i acc, try_read_word_racing s o isr =
      some (try_read_word_commit (ld_push_all s isr) s.tail mask i acc o) := by
  have hsz := ld_size_le s hh ht
  obtain ⟨r1, h1⟩ := sync_search_total s (by omega) 65536 0 (decide (s.tail % 2 = 0)) 0
    (by omega) (by omega)
  obtain ⟨i, level⟩ := r1
  obtain ⟨r2, h2⟩ := bit_loop_total s 32 (1 <<< 31) i level 0 (LOGICDATA_SAMPLE_RATE_US / 2) 0
    (by rw [mask_start]; norm_num)
  obtain ⟨mask, i2, acc⟩ := r2
  refine ⟨mask, i2, acc, ?_⟩
  unfold try_read_word_racing
  simp only [h1, h2]

/-- Without pushes in between, the racing call is the call. -/
theorem try_read_word_racing_nil (s : logicdata_ctx) (o : Nat) :
    try_read_word_racing s o [] = try_read_word_body s o := by
  unfold try_read_word_racing try_read_word_body try_read_word_commit
  simp only [ld_push_all_nil]
  cases sync_search s 65536 0 (decide (s.tail % 2 = 0)) 0 with
  | none => rfl
  | some r =>
    obtain ⟨i, level⟩ := r
    dsimp only
    cases bit_loop s 33 (1 <<< 31) i level 0 (LOGICDATA_SAMPLE_RATE_US / 2) 0 with
    | none => rfl
    | some r2 =>
      obtain ⟨mask, i2, acc⟩ := r2
      dsimp only
      by_cases hm : mask = 0
      · simp only [hm, ne_eq, not_true_eq_false, if_false]
        cases commit_block s s.tail i2 with
        | mk ok c => cases ok <;> rfl
      · simp [hm]

/-- When every buffered interval still to be read is at least one bit-period long and the
budget cannot overflow, the bit loop of the code and the reference bit reconstruction
agree: both fail, or both produce the same scan position and word. -/
theorem bit_loop_eq_spec (s : logicdata_ctx) (hsz : ld_size s < 65535) (k : Nat) :
    ∀ (i : Nat) (level : Bool) (acc budget t : Nat), i ≤ ld_size s →
      (∀ v ∈ (ld_view s).drop (i + 1), 1000 ≤ v) →
      budget + ((ld_view s).drop (i + 1)).sum < 4294967296 →
      (spec_bit_reconstruction s k i level acc budget = none →
        ∃ m i2 a, bit_loop s (k + 1) (2 ^ k / 2) i level acc budget t = some (m, i2, a) ∧
          m ≠ 0) ∧
      (∀ i2 a, spec_bit_reconstruction s k i level acc budget = some (i2, a) →
        bit_loop s (k + 1) (2 ^ k / 2) i level acc budget t = some (0, i2, a)) := by
  induction k with
  | zero =>
    intro i level acc budget t _ _ _
    constructor
    · intro h; simp [spec_bit_reconstruction] at h
    · intro i2 a h
      simp [spec_bit_reconstruction] at h
      simp [bit_loop, h.1, h.2]
  | succ k ih =>
    intro i level acc budget t hi hge hsum
    have hmask : 2 ^ (k + 1) / 2 ≠ 0 := half_pow_ne_zero (k + 1) (by omega)
    have hmk : 2 ^ (k + 1) / 2 = 2 ^ k := by rw [Nat.pow_succ]; omega
    have hmod : (i + 1) % 65536 = i + 1 := Nat.mod_eq_of_lt (by omega)
    rw [bit_loop, spec_bit_reconstruction]
    simp only [hmask, if_false, hmod, half_pow_shift, Nat.add_sub_cancel]
    rw [show (81 : Nat) = 79 + 1 + 1 from rfl, spec_refill]
    by_cases hlt : budget < LOGICDATA_SAMPLE_RATE_US
    · simp only [hlt, if_true]
      by_cases hin : i + 1 < (ld_view s).length
      · have hpeek : ∀ t0, ld_peek s (i + 1) t0 = (true, (ld_view s)[i + 1]) := by
          intro t0
          rw [ld_peek_eq_view, List.getElem?_eq_getElem hin]
        have hdrop : (ld_view s).drop (i + 1) =
            (ld_view s)[i + 1] :: (ld_view s).drop (i + 1 + 1) := List.drop_eq_getElem_cons hin
        have hv : 1000 ≤ (ld_view s)[i + 1] := hge _ (by rw [hdrop]; exact List.mem_cons_self _ _)
        rw [hdrop, List.sum_cons] at hsum
        rw [hpeek, hpeek]
        dsimp only
        have hadd : (budget + (ld_view s)[i + 1]) % 4294967296 = budget + (ld_view s)[i + 1] :=
          Nat.mod_eq_of_lt (by omega)
        have hsub : (budget + (ld_view s)[i + 1] + 4294967296 - LOGICDATA_SAMPLE_RATE_US) %
            4294967296 = budget + (ld_view s)[i + 1] - LOGICDATA_SAMPLE_RATE_US := by
          unfold LOGICDATA_SAMPLE_RATE_US; omega
        have hnl : ¬ budget + (ld_view s)[i + 1] < LOGICDATA_SAMPLE_RATE_US := by
          unfold LOGICDATA_SAMPLE_RATE_US; omega
        rw [hadd, hsub, spec_refill]
        simp only [hnl, if_false, hmk]
        rw [ld_view_length] at hin
        exact ih (i + 1) _ _ _ _ (by omega)
          (fun v hv2 => hge v (by rw [hdrop]; exact List.mem_cons_of_mem _ hv2))
          (by unfold LOGICDATA_SAMPLE_RATE_US; omega)
      · have hpeek : ∀ t0, ld_peek s (i + 1) t0 = (false, t0) := by
          intro t0
          rw [ld_peek_eq_view, List.getElem?_eq_none (by omega)]
        rw [hpeek, hpeek]
        dsimp only
        exact ⟨fun _ => ⟨_, _, _, rfl, hmask⟩, fun i2 a h => by simp at h⟩
    · simp only [hlt, if_false, hmk]
      have hsub : (budget + 4294967296 - LOGICDATA_SAMPLE_RATE_US) % 4294967296 =
          budget - LOGICDATA_SAMPLE_RATE_US := by
        unfold LOGICDATA_SAMPLE_RATE_US at hlt ⊢; omega
      rw [hsub]
      exact ih i _ _ _ _ hi hge (by omega)

/-- On a ring whose intervals after the index the start-bit search stops at are all at
least one bit-period long (and sum to less than `2^32 - 500`), the decode call of the code
and the reference decode call return the same result. -/
theorem try_read_word_eq_spec (s : logicdata_ctx) (hh : s.head < 80) (ht : s.tail < 80)
    (i : Nat) (level : Bool)
    (hs : sync_search s 65536 0 (decide (s.tail % 2 = 0)) 0 = some (i, level))
    (hge : ∀ v ∈ (ld_view s).drop (i + 1), 1000 ≤ v)
    (hsum : 500 + ((ld_view s).drop (i + 1)).sum < 4294967296) (o : Nat) :
    try_read_word_body s o = spec_try_read_word s o := by
  have hsz := ld_size_le s hh ht
  have hi : i ≤ ld_size s := sync_search_le s (by omega) 65536 0 _ 0 i level (by omega) hs
  have hhalf : LOGICDATA_SAMPLE_RATE_US / 2 = 500 := rfl
  have hpow : (2 : Nat) ^ 32 / 2 = 2147483648 := by norm_num
  obtain ⟨h1, h2⟩ := bit_loop_eq_spec s (by omega) 32 i level 0 500 0 hi hge hsum
  rw [hpow] at h1 h2
  unfold try_read_word_body spec_try_read_word
  simp only [hs, mask_start, hhalf]
  cases hsp : spec_bit_reconstruction s 32 i level 0 500 with
  | none =>
    obtain ⟨m, i2, a, hb, hm⟩ := h1 hsp
    simp [hb, hm]
  | some r =>
    obtain ⟨i2, a⟩ := r
    rw [h2 i2 a hsp]
    simp only [ne_eq, not_true_eq_false, if_false, commit_block, spec_commit_consumed, if_true,
      LOGICDATA_TRACE_HISTORY_MAX]
    by_cases hi2 : i2 > 0
    · simp [hi2]
    · have : i2 = 0 := by omega
      subst this
      simp [Nat.mod_eq_of_lt ht]

theorem try_read_word_racing_eq (s : logicdata_ctx) (o : Nat) (isr : List Nat) (i : Nat)
    (lvl : Bool) (mask i2 acc : Nat)
    (hs : sync_search s 65536 0 (decide (s.tail % 2 = 0)) 0 = some (i, lvl))
    (hb : bit_loop s 33 (1 <<< 31) i lvl 0 (LOGICDATA_SAMPLE_RATE_US / 2) 0 =
      some (mask, i2, acc)) :
    try_read_word_racing s o isr =
      some (try_read_word_commit (ld_push_all s isr) s.tail mask i2 acc o) := by
  unfold try_read_word_racing
  simp only [hs, hb]

theorem try_read_word_commit_of_eq (ctx1 : logicdata_ctx) (fini i acc o : Nat)
    (h : fini = ctx1.tail) (hi : 0 < i) :
    try_read_word_commit ctx1 fini 0 i acc o =
      (true, { ctx1 with tail := (ctx1.tail + (i - 1)) % 80 }, acc) := by
  unfold try_read_word_commit commit_block
  simp [h, hi, LOGICDATA_TRACE_HISTORY_MAX]

/-- C11 as stated fails when the evictions wrap the ring: the ring holds a complete frame
in 9 samples, and between the bit loop and the commit block the producer pushes 150
samples.  These evict 80 samples, which brings `tail` back to the snapshot value 0; the
commit block accepts, the call returns `true` with the word of the evicted frame and
writes `tail := 7`. -/
theorem C11_wrapped_eviction_counterexample :
    ld_size (ld_push_all (logicdata_init 0)
        [4294967295, 50000, 1000, 1000, 7000, 2000, 10000, 1000, 10000]) +
      (List.replicate 150 1000).length -
      min (ld_size (ld_push_all (logicdata_init 0)
        [4294967295, 50000, 1000, 1000, 7000, 2000, 10000, 1000, 10000]) +
        (List.replicate 150 1000).length) 79 = 80 ∧
    (ld_push_all (ld_push_all (logicdata_init 0)
        [4294967295, 50000, 1000, 1000, 7000, 2000, 10000, 1000, 10000])
      (List.replicate 150 1000)).tail = 0 ∧
    (try_read_word_racing (ld_push_all (logicdata_init 0)
        [4294967295, 50000, 1000, 1000, 7000, 2000, 10000, 1000, 10000]) 0
      (List.replicate 150 1000)).map (fun r => (r.1, r.2.1.tail, r.2.2)) =
      some (true, 7, 0x40600400) := by
  have hl : (List.replicate 150 1000).length = 150 := List.length_replicate _ _
  generalize List.replicate 150 1000 = isr at hl ⊢
  have hsize : ld_size (ld_push_all (logicdata_init 0)
      [4294967295, 50000, 1000, 1000, 7000, 2000, 10000, 1000, 10000]) = 9 := by decide
  have h0 : (ld_push_all (logicdata_init 0)
      [4294967295, 50000, 1000, 1000, 7000, 2000, 10000, 1000, 10000]).tail = 0 := by decide
  have htail : (ld_push_all (ld_push_all (logicdata_init 0)
        [4294967295, 50000, 1000, 1000, 7000, 2000, 10000, 1000, 10000]) isr).tail = 0 := by
    rw [ld_push_all_tail _ (by decide) (by decide), hsize, hl, h0]
    decide
  have hsync : sync_search (ld_push_all (logicdata_init 0)
      [4294967295, 50000, 1000, 1000, 7000, 2000, 10000, 1000, 10000]) 65536 0
      (decide ((ld_push_all (logicdata_init 0)
        [4294967295, 50000, 1000, 1000, 7000, 2000, 10000, 1000, 10000]).tail % 2 = 0)) 0
      = some (1, false) := by decide
  have hbits : bit_loop (ld_push_all (logicdata_init 0)
      [4294967295, 50000, 1000, 1000, 7000, 2000, 10000, 1000, 10000]) 33 (1 <<< 31) 1 false 0
      (LOGICDATA_SAMPLE_RATE_US / 2) 0 = some (0, 8, 0x40600400) := by decide
  refine ⟨by rw [hsize, hl]; decide, htail, ?_⟩
  rw [try_read_word_racing_eq _ 0 isr 1 false 0 8 0x40600400 hsync hbits,
    try_read_word_commit_of_eq _ _ 8 _ 0 (by rw [h0, htail]) (by decide)]
  simp only [Option.map_some', htail]

/-- C11 (optimistic commit under a race), amended: on a ring with `head < 80` and
`tail < 80`, let the producer push the samples `isr` between the bit loop and the commit
block, evicting `e = size + |isr| - min (size + |isr|) 79` buffered samples, so that
`tail` stands at `(old tail + e) mod 80` at the commit.  If `e` is not a multiple of 80
the call returns `false`, leaves `*out_word` alone and hands back the context exactly as
the producer left it: no write to `tail`, nothing consumed.  More generally, whatever the
loops have read, a commit that finds `tail` different from the snapshot reports failure
and writes nothing. -/
theorem C11_commit_under_race (s : logicdata_ctx) (hh : s.head < 80) (ht : s.tail < 80)
    (o : Nat) (isr : List Nat) :
    ld_view (ld_push_all s isr) =
      (ld_view s ++ isr).drop (ld_size s + isr.length - min (ld_size s + isr.length) 79) ∧
    (ld_push_all s isr).tail =
      (s.tail + (ld_size s + isr.length - min (ld_size s + isr.length) 79)) % 80 ∧
    ((ld_size s + isr.length - min (ld_size s + isr.length) 79) % 80 ≠ 0 →
      try_read_word_racing s o isr = some (false, ld_push_all s isr, o)) ∧
    (∀ (ctx1 : logicdata_ctx) (fini mask i acc : Nat), fini ≠ ctx1.tail →
      try_read_word_commit ctx1 fini mask i acc o = (false, ctx1, o)) := by
  have htail := ld_push_all_tail s hh ht isr
  refine ⟨?_, htail, ?_, fun ctx1 fini mask i acc h =>
    try_read_word_commit_of_ne ctx1 fini mask i acc o h⟩
  · have := ld_view_push_all isr s hh ht
    simpa [ld_view_length] using this
  · intro he
    obtain ⟨mask, i, acc, hr⟩ := try_read_word_racing_scan s hh ht o isr
    rw [hr, try_read_word_commit_of_ne]
    rw [htail]
    omega

theorem C11_witness :
    try_read_word_racing (ld_push_all (logicdata_init 0)
        [4294967295, 50000, 1000, 1000, 7000, 2000, 10000, 1000, 10000]) 0
      (List.replicate 75 1000) =
      some (false, ld_push_all (ld_push_all (logicdata_init 0)
        [4294967295, 50000, 1000, 1000, 7000, 2000, 10000, 1000, 10000])
        (List.replicate 75 1000), 0) :=
  (C11_commit_under_race (ld_push_all (logicdata_init 0)
      [4294967295, 50000, 1000, 1000, 7000, 2000, 10000, 1000, 10000])
    (by decide) (by decide) 0 (List.replicate 75 1000)).2.2.1 (by decide)

/-! ## A failed decode writes nothing -/

/-- Whenever the code after the bit loop reports failure (bits missing, or `tail` different
from the snapshot inside the critical section), it hands back the context it found and the
caller's word, both unwritten. -/
theorem try_read_word_commit_false (ctx1 : logicdata_ctx) (fini mask i acc o : Nat)
    (h : (try_read_word_commit ctx1 fini mask i acc o).1 = false) :
    try_read_word_commit ctx1 fini mask i acc o = (false, ctx1, o) := by
  by_cases hne : fini = ctx1.tail
  · unfold try_read_word_commit commit_block at h ⊢
    by_cases hm : mask = 0
    · by_cases hi : 0 < i
      · simp [hm, hne, hi] at h
      · simp [hm, hne, hi] at h
    · simp [hm]
  · exact try_read_word_commit_of_ne ctx1 fini mask i acc o hne

/-- Every `false` return of a call during which the producer pushed `isr` leaves the context
as the producer left it and the caller's word unwritten. -/
theorem try_read_word_racing_false (s : logicdata_ctx) (o : Nat) (isr : List Nat)
    (c2 : logicdata_ctx) (o2 : Nat)
    (h : try_read_word_racing s o isr = some (false, c2, o2)) :
    c2 = ld_push_all s isr ∧ o2 = o := by
  unfold try_read_word_racing at h
  dsimp only at h
  cases hs : sync_search s 65536 0 (decide (s.tail % 2 = 0)) 0 with
  | none => rw [hs] at h; simp at h
  | some r =>
    obtain ⟨i, level⟩ := r
    rw [hs] at h
    dsimp only at h
    cases hb : bit_loop s 33 (1 <<< 31) i level 0 (LOGICDATA_SAMPLE_RATE_US / 2) 0 with
    | none => rw [hb] at h; simp at h
    | some r2 =>
      obtain ⟨mask, i2, acc⟩ := r2
      rw [hb] at h
      dsimp only at h
      have h1 : try_read_word_commit (ld_push_all s isr) s.tail mask i2 acc o = (false, c2, o2) :=
        Option.some.inj h
      have h2 := try_read_word_commit_false (ld_push_all s isr) s.tail mask i2 acc o
        (by rw [h1])
      rw [h2] at h1
      simp only [Prod.mk.injEq, true_and] at h1
      exact ⟨h1.1.symm, h1.2.symm⟩

/-- C3 (a failed decode is never partially applied): whenever `logicdata_try_read_word`
returns `false` (null argument, no start marker, too few intervals for 32 bits), the context
(head, tail, trace) and `*out_word` are exactly as before the call.  For the fourth cause,
`tail` differing from the snapshot at commit, the producer pushes `isr` between the scan and
the commit: every `false` return of that call hands back the context exactly as the producer
left it, `ld_push_all s isr`, and the caller's word unwritten; and when `tail` at commit
differs from the snapshot the call does return `false` in that way.  The same holds of the
code after the bit loop for any context, snapshot and scan result it may be entered with,
and of the commit block inside it. -/
theorem C3_failed_decode_not_applied (ctx_ : Option logicdata_ctx) (out_word : Option Nat)
    (c1 : Option logicdata_ctx) (o1 : Option Nat)
    (h : logicdata_try_read_word ctx_ out_word = some (false, c1, o1)) :
    (c1 = ctx_ ∧ o1 = out_word) ∧
    (∀ (s : logicdata_ctx) (o : Nat) (isr : List Nat) (c2 : logicdata_ctx) (o2 : Nat),
      try_read_word_racing s o isr = some (false, c2, o2) →
      c2 = ld_push_all s isr ∧ o2 = o) ∧
    (∀ (s : logicdata_ctx) (o : Nat) (isr : List Nat), s.head < 80 → s.tail < 80 →
      (ld_push_all s isr).tail ≠ s.tail →
      try_read_word_racing s o isr = some (false, ld_push_all s isr, o)) ∧
    (∀ (ctx1 : logicdata_ctx) (fini mask i acc o : Nat), fini ≠ ctx1.tail ∨ mask ≠ 0 →
      try_read_word_commit ctx1 fini mask i acc o = (false, ctx1, o)) ∧
    (∀ (ctx1 : logicdata_ctx) (fini mask i acc o : Nat),
      (try_read_word_commit ctx1 fini mask i acc o).1 = false →
      try_read_word_commit ctx1 fini mask i acc o = (false, ctx1, o)) ∧
    (∀ (s : logicdata_ctx) (fini i : Nat), fini ≠ s.tail → commit_block s fini i = (false, s)) ∧
    (∀ (s : logicdata_ctx) (fini i : Nat),
      (commit_block s fini i).1 = false → (commit_block s fini i).2 = s) := by
  refine ⟨?_, ?_, ?_, ?_, ?_, ?_, ?_⟩
  · unfold logicdata_try_read_word at h
    split at h
    · rename_i ctx w
      split at h
      · simp at h
      · rename_i ok ctx1 w1 hb
        simp at h
        obtain ⟨h1, h2, h3⟩ := h
        subst h1
        have := try_read_word_body_false ctx ctx1 w w1 hb
        rw [← h2, ← h3, this.1, this.2]
        exact ⟨rfl, rfl⟩
    · simp at h
      exact ⟨h.1.symm, h.2.symm⟩
  · intro s o isr c2 o2 hr
    exact try_read_word_racing_false s o isr c2 o2 hr
  · intro s o isr hh ht hne
    obtain ⟨mask, i, acc, hr⟩ := try_read_word_racing_scan s hh ht o isr
    rw [hr, try_read_word_commit_of_ne _ _ _ _ _ _ (Ne.symm hne)]
  · intro ctx1 fini mask i acc o hc
    rcases hc with hne | hm
    · exact try_read_word_commit_of_ne ctx1 fini mask i acc o hne
    · unfold try_read_word_commit
      rw [if_pos hm]
  · intro ctx1 fini mask i acc o hf
    exact try_read_word_commit_false ctx1 fini mask i acc o hf
  · intro s fini i hne
    unfold commit_block
    rw [if_neg hne]
  · intro s fini i hf
    unfold commit_block at hf ⊢
    split
    · rename_i heq
      rw [if_pos heq] at hf
      split at hf <;> simp at hf
    · rfl

-- Two rings: a start marker followed by one interval (too few for 32 bits), and a full ring
-- whose scan yields all 32 bits while one push in between moves `tail` from 0 to 1.
set_option maxRecDepth 100000 in
theorem C3_witness :
    logicdata_try_read_word (some (ld_push_all (logicdata_init 0) [5, 50000, 1000])) (some 7) =
      some (false, some (ld_push_all (logicdata_init 0) [5, 50000, 1000]), some 7) ∧
    (ld_push_all (logicdata_init 0) (5 :: 50000 :: List.replicate 77 1000)).tail = 0 ∧
    (bit_loop (ld_push_all (logicdata_init 0) (5 :: 50000 :: List.replicate 77 1000))
      33 (1 <<< 31) 1 false 0 (LOGICDATA_SAMPLE_RATE_US / 2) 0).map (fun r => (r.1, r.2.1)) =
      some (0, 33) ∧
    (ld_push_all (ld_push_all (logicdata_init 0) (5 :: 50000 :: List.replicate 77 1000))
      [1000]).tail = 1 ∧
    try_read_word_racing (ld_push_all (logicdata_init 0) (5 :: 50000 :: List.replicate 77 1000))
      7 [1000] =
      some (false,
        ld_push_all (ld_push_all (logicdata_init 0) (5 :: 50000 :: List.replicate 77 1000))
          [1000], 7) :=
  ⟨rfl, by decide, by decide, by decide,
    (C3_failed_decode_not_applied (some (ld_push_all (logicdata_init 0) [5, 50000, 1000]))
      (some 7) (some (ld_push_all (logicdata_init 0) [5, 50000, 1000])) (some 7) rfl).2.2.1
      (ld_push_all (logicdata_init 0) (5 :: 50000 :: List.replicate 77 1000)) 7 [1000]
      (by decide) (by decide) (by decide)⟩

/-! ## Producer and decoder agree on levels -/

/-- A decode call leaves `tail` alone or moves it forward inside the readable contents. -/
theorem try_read_word_tail_cases (s s1 : logicdata_ctx) (hh : s.head < 80) (ht : s.tail < 80)
    (o o1 : Option Nat) (ok : Bool)
    (h : logicdata_try_read_word (some s) o = some (ok, some s1, o1)) :
    s1.tail = s.tail ∨ ∃ i, 1 ≤ i ∧ i < ld_size s ∧ s1.tail = (s.tail + i - 1) % 80 := by
  cases o with
  | none =>
    unfold logicdata_try_read_word at h
    simp at h
    left
    rw [← h.2.1]
  | some w =>
    have h2 := h
    rw [try_read_word_some] at h2
    cases hb : try_read_word_body s w with
    | none => rw [hb] at h2; simp at h2
    | some r =>
      obtain ⟨ok2, s2, w2⟩ := r
      rw [hb] at h2
      simp at h2
      obtain ⟨e1, e2, e3⟩ := h2
      subst e1 e2 e3
      cases ok2 with
      | false =>
        left
        rw [(try_read_word_body_false s s2 w w2 hb).1]
      | true =>
        right
        obtain ⟨i0, lvl, i, _, _, hi1, hi2, htl, _⟩ := try_read_word_true_shape s s2 hh ht w w2 h
        exact ⟨i, hi1, hi2, htl⟩

theorem isr_accepts_iff (s : logicdata_ctx) (level : Bool) :
    isr_accepts s level = true ↔ level = decide (s.head % 2 = 1) := by
  unfold isr_accepts
  have : decide (s.head % 2 ≠ 0) = decide (s.head % 2 = 1) := by
    apply decide_eq_decide.2; omega
  rw [this]
  simp

/-- The record kept over the reachable states: the indices stay in range, each recorded
slot was written by an edge whose level is `slot odd`, the last accepted edge has the
level `head even`, and every readable slot is recorded. -/
theorem ghost_invariant (g : ghost_ctx) (h : GhostReachable g) :
    g.ctx.head < 80 ∧ g.ctx.tail < 80 ∧
    (∀ (k : Fin 80) (l : Bool), g.edge_level k = some l → l = decide (k.val % 2 = 1)) ∧
    (∀ l : Bool, g.last_edge = some l → l = decide (g.ctx.head % 2 = 0)) ∧
    (∀ i, i < ld_size g.ctx → ∃ l, g.edge_level (ld_peek_pos g.ctx i) = some l) := by
  induction h with
  | init now =>
    refine ⟨Nat.zero_lt_succ _, Nat.zero_lt_succ _, ?_, ?_, ?_⟩
    · intro k l hk; simp at hk
    · intro l hl; simp at hl
    · intro i hi
      have : ld_size (logicdata_init now) = 0 := by
        rw [ld_size_eq _ (Nat.zero_lt_succ _) (Nat.zero_lt_succ _)]
        simp [logicdata_init]
      rw [this] at hi
      omega
  | isr g now level _ ih =>
    obtain ⟨hh, ht, hslot, hlast, hbuf⟩ := ih
    unfold logicdata_gpio_isr_ghost
    by_cases hacc : isr_accepts g.ctx level = true
    · have hl := (isr_accepts_iff g.ctx level).1 hacc
      rw [if_pos hacc]
      have hctx := gpio_isr_of_match g.ctx now level hl
      have hhead : (logicdata_gpio_isr g.ctx now level).head = (g.ctx.head + 1) % 80 := by
        rw [hctx]; rfl
      have htail : (logicdata_gpio_isr g.ctx now level).tail =
          if (g.ctx.head + 1) % 80 = g.ctx.tail then (g.ctx.tail + 1) % 80 else g.ctx.tail := by
        rw [hctx]; rfl
      have hsz := ld_size_eq g.ctx hh ht
      have hh1 : (logicdata_gpio_isr g.ctx now level).head < 80 := by rw [hhead]; omega
      have ht1 : (logicdata_gpio_isr g.ctx now level).tail < 80 := by
        rw [htail]; split <;> omega
      have hsz1 := ld_size_eq _ hh1 ht1
      refine ⟨hh1, ht1, ?_, ?_, ?_⟩
      · intro k l hk
        have hk2 : (if h : g.ctx.head < 80 then
            Function.update g.edge_level ⟨g.ctx.head, h⟩ (some level) else g.edge_level) k
            = some l := hk
        clear hk
        rename' hk2 => hk
        simp only [hh, dite_true, Function.update_apply] at hk
        by_cases hkh : k = ⟨g.ctx.head, hh⟩
        · rw [if_pos hkh] at hk
          have hk3 : level = l := by simpa using hk
          rw [← hk3, hl, hkh]
        · rw [if_neg hkh] at hk
          exact hslot k l hk
      · intro l hlv
        have hlv2 : level = l := by simpa using hlv
        show l = decide ((logicdata_gpio_isr g.ctx now level).head % 2 = 0)
        rw [hhead, ← hlv2, hl]
        apply decide_eq_decide.2
        omega
      · intro i hi
        have hi2 : i < ld_size (logicdata_gpio_isr g.ctx now level) := hi
        clear hi
        rename' hi2 => hi
        show ∃ l, (if h : g.ctx.head < 80 then
            Function.update g.edge_level ⟨g.ctx.head, h⟩ (some level) else g.edge_level)
          (ld_peek_pos (logicdata_gpio_isr g.ctx now level) i) = some l
        simp only [hh, dite_true, Function.update_apply]
        by_cases hkh : ld_peek_pos (logicdata_gpio_isr g.ctx now level) i = ⟨g.ctx.head, hh⟩
        · rw [if_pos hkh]; exact ⟨level, rfl⟩
        · rw [if_neg hkh]
          have hval : (ld_peek_pos (logicdata_gpio_isr g.ctx now level) i).val ≠ g.ctx.head := by
            intro hc; exact hkh (Fin.ext hc)
          rw [ld_peek_pos_val, htail] at hval
          rw [hsz1, hhead, htail] at hi
          by_cases hfull : (g.ctx.head + 1) % 80 = g.ctx.tail
          · simp only [hfull, if_true] at hval hi
            obtain ⟨l, hl2⟩ := hbuf (i + 1) (by rw [hsz]; omega)
            refine ⟨l, ?_⟩
            rw [← hl2]
            congr 1
            apply Fin.ext
            simp only [ld_peek_pos_val, htail, hfull, if_true]
            omega
          · simp only [hfull, if_false] at hval hi
            obtain ⟨l, hl2⟩ := hbuf i (by rw [hsz]; omega)
            refine ⟨l, ?_⟩
            rw [← hl2]
            congr 1
            apply Fin.ext
            simp only [ld_peek_pos_val, htail, hfull, if_false]
    · have hl : level ≠ decide (g.ctx.head % 2 = 1) := fun hc =>
        hacc ((isr_accepts_iff g.ctx level).2 hc)
      rw [if_neg hacc]
      have hctx := gpio_isr_of_mismatch g.ctx now level hl
      have hhead : (logicdata_gpio_isr g.ctx now level).head = g.ctx.head := by rw [hctx]
      have htail : (logicdata_gpio_isr g.ctx now level).tail = g.ctx.tail := by rw [hctx]
      have hsz1 : ld_size (logicdata_gpio_isr g.ctx now level) = ld_size g.ctx := by
        unfold ld_size; rw [hhead, htail]
      refine ⟨by rw [hhead]; exact hh, by rw [htail]; exact ht, hslot, ?_, ?_⟩
      · intro l hlv
        show l = decide ((logicdata_gpio_isr g.ctx now level).head % 2 = 0)
        rw [hhead]; exact hlast l hlv
      · intro i hi
        show ∃ l, g.edge_level (ld_peek_pos (logicdata_gpio_isr g.ctx now level) i) = some l
        rw [hsz1] at hi
        obtain ⟨l, hl2⟩ := hbuf i hi
        refine ⟨l, ?_⟩
        rw [← hl2]
        congr 1
        apply Fin.ext
        simp only [ld_peek_pos_val, htail]
  | read g o ok s1 o1 _ hr ih =>
    obtain ⟨hh, ht, hslot, hlast, hbuf⟩ := ih
    have hfr := try_read_word_frame g.ctx s1 o o1 ok hr
    have hsz := ld_size_eq g.ctx hh ht
    have htl := try_read_word_tail_cases g.ctx s1 hh ht o o1 ok hr
    have hh1 : s1.head < 80 := by rw [hfr.1]; exact hh
    have ht1 : s1.tail < 80 := by
      rcases htl with h1 | ⟨i, _, _, h1⟩ <;> rw [h1] <;> omega
    have hsz1 := ld_size_eq s1 hh1 ht1
    refine ⟨hh1, ht1, hslot, ?_, ?_⟩
    · intro l hlv
      show l = decide (s1.head % 2 = 0)
      rw [hfr.1]; exact hlast l hlv
    · intro i hi
      show ∃ l, g.edge_level (ld_peek_pos s1 i) = some l
      rw [hsz1, hfr.1] at hi
      rcases htl with h1 | ⟨i2, hi21, hi22, h1⟩
      · rw [h1] at hi
        obtain ⟨l, hl2⟩ := hbuf i (by rw [hsz]; exact hi)
        refine ⟨l, ?_⟩
        rw [← hl2]
        congr 1
        apply Fin.ext
        simp only [ld_peek_pos_val, h1]
      · rw [h1] at hi
        rw [hsz] at hi22
        obtain ⟨l, hl2⟩ := hbuf (i + i2 - 1) (by rw [hsz]; omega)
        refine ⟨l, ?_⟩
        rw [← hl2]
        congr 1
        apply Fin.ext
        simp only [ld_peek_pos_val, h1]
        omega

theorem gpio_isr_head_changes (s : logicdata_ctx) (now : Nat) (level : Bool) :
    isr_accepts s level = true ↔ (logicdata_gpio_isr s now level).head ≠ s.head := by
  rw [isr_accepts_iff]
  by_cases hl : level = decide (s.head % 2 = 1)
  · rw [gpio_isr_of_match s now level hl]
    simp only [hl, true_iff]
    show (s.head + 1) % 80 ≠ s.head
    omega
  · rw [gpio_isr_of_mismatch s now level hl]
    simp [hl]

theorem gpio_isr_trace_changes (s : logicdata_ctx) (now : Nat) (level : Bool) (k : Fin 80)
    (h : (logicdata_gpio_isr s now level).trace k ≠ s.trace k) :
    k.val = s.head ∧ level = decide (k.val % 2 = 1) := by
  by_cases hl : level = decide (s.head % 2 = 1)
  · rw [gpio_isr_of_match s now level hl] at h
    have h2 : (ld_push_isr s
        (if s.pin_idle = true ∨ 65536 ≤ (((now : Int) - (s.prev_bit_us : Int)) % 4294967296).toNat
          then LOGICDATA_BIG_IDLE
          else (((now : Int) - (s.prev_bit_us : Int)) % 4294967296).toNat)).trace k
        ≠ s.trace k := h
    by_cases hh : s.head < 80
    · rw [ld_push_isr_trace s _ hh] at h2
      by_cases hk : k.val = s.head
      · exact ⟨hk, by rw [hk]; exact hl⟩
      · rw [if_neg hk] at h2
        exact absurd rfl h2
    · exfalso
      apply h2
      unfold ld_push_isr
      simp [hh]
  · rw [gpio_isr_of_mismatch s now level hl] at h
    exact absurd rfl h

/-- C19 (producer and decoder agree on levels): because the capacity 80 is even,
`(tail + i) mod 80` is even exactly when `tail + i` is.  The interrupt handler writes slot
`k` only on an edge whose level is `k odd`.  In every state reachable through edge
interrupts and decode calls: each recorded slot was written by an edge of level
`slot odd`; the next accepted edge has the opposite level of the last accepted one; and for
every buffered sample the level the decoder tracks at its view index, high on `tail + i`
even, is the opposite of the level of the edge that recorded it.  The start-bit search
returns that tracked level. -/
theorem C19_levels_agree (g : ghost_ctx) (h : GhostReachable g) :
    (∀ tail i : Nat, ((tail + i) % 80) % 2 = 0 ↔ (tail + i) % 2 = 0) ∧
    (∀ (now : Nat) (level : Bool) (k : Fin 80),
      (logicdata_gpio_isr g.ctx now level).trace k ≠ g.ctx.trace k →
      k.val = g.ctx.head ∧ level = decide (k.val % 2 = 1)) ∧
    (∀ (k : Fin 80) (l : Bool), g.edge_level k = some l → l = decide (k.val % 2 = 1)) ∧
    (∀ (now : Nat) (level l : Bool), g.last_edge = some l →
      (logicdata_gpio_isr g.ctx now level).head ≠ g.ctx.head → level = !l) ∧
    (∀ i, i < ld_size g.ctx →
      ∃ l, g.edge_level (ld_peek_pos g.ctx i) = some l ∧
        decide ((g.ctx.tail + i) % 2 = 0) = !l) ∧
    (∀ (i1 : Nat) (lvl : Bool),
      sync_search g.ctx 65536 0 (decide (g.ctx.tail % 2 = 0)) 0 = some (i1, lvl) →
      lvl = decide ((g.ctx.tail + i1) % 2 = 0)) := by
  obtain ⟨hh, ht, hslot, hlast, hbuf⟩ := ghost_invariant g h
  have hsz := ld_size_le g.ctx hh ht
  refine ⟨fun tail i => by omega, fun now level k hk => gpio_isr_trace_changes g.ctx now level k hk,
    hslot, ?_, ?_, ?_⟩
  · intro now level l hl hchg
    have hacc := (gpio_isr_head_changes g.ctx now level).2 hchg
    rw [isr_accepts_iff] at hacc
    rw [hacc, hlast l hl]
    cases hd : decide (g.ctx.head % 2 = 0) <;> simp at hd ⊢ <;> omega
  · intro i hi
    obtain ⟨l, hl⟩ := hbuf i hi
    refine ⟨l, hl, ?_⟩
    rw [hslot _ l hl, ld_peek_pos_val]
    cases hd : decide ((g.ctx.tail + i) % 80 % 2 = 1) <;> simp at hd ⊢ <;> omega
  · intro i1 lvl hs
    exact (sync_search_level g.ctx (by omega) 65536 0 _ 0 i1 lvl (by simp) (by omega) hs).1

theorem C19_witness :
    ∃ l, (logicdata_gpio_isr_ghost
        { ctx := logicdata_init 0, edge_level := fun _ => none, last_edge := none }
        100 false).edge_level
        (ld_peek_pos (logicdata_gpio_isr_ghost
          { ctx := logicdata_init 0, edge_level := fun _ => none, last_edge := none }
          100 false).ctx 0) = some l ∧
      decide (((logicdata_gpio_isr_ghost
        { ctx := logicdata_init 0, edge_level := fun _ => none, last_edge := none }
        100 false).ctx.tail + 0) % 2 = 0) = !l :=
  (C19_levels_agree _ (GhostReachable.isr _ 100 false (GhostReachable.init 0))).2.2.2.2.1 0
    (by decide)

end LogicData
